import Mathlib

/-!
Verification of the martin tile-server core against its specification.

This file shallowly embeds the parts of the source tree that the checked
claims are about:

* `martin-tile-utils/src/lib.rs` — the payload classifier `DataFormat::detect`;
* `src/file_config.rs` — the file-config resolver `resolve_int`;
* `src/config.rs` — `Config::finalize` and `Config::resolve`;
* `src/pg/config.rs` — `PgConfigBuilder::finalize`;
* `src/pg/table_source.rs` — `get_table_sources` and the `get_tile` error
  message;
* the `IdResolver` (its implementation file `src/source.rs` is not part of
  the tree; its behaviour is modelled from the specification).

Byte slices are embedded as `List Nat`, Rust `HashMap`s as association
lists with replace-or-append insertion, `HashSet`s as duplicate-free
lists, and fallible code as `Option`/`Except` values.  A Rust slice
expression `&v[a..b]` panics when the range does not fit; this is embedded
by `sliceRange`, which returns `none` exactly in the panicking case, and
panics propagate through `detect` as `none`.
-/

namespace Martin

/-- `DataFormat` from `martin-tile-utils/src/lib.rs`. -/
inductive DataFormat where
  | Png
  | Jpeg
  | Webp
  | Gif
  | Json
  | Mvt
  | GzipMvt
  | ZlibMvt
  | Unknown
deriving DecidableEq, Repr

/-- Rust `&v[a..b]`: `some` of the subslice when `a ≤ b ≤ v.length`,
`none` (a panic) otherwise. -/
def sliceRange (v : List Nat) (a b : Nat) : Option (List Nat) :=
  if a ≤ b ∧ b ≤ v.length then some ((v.take b).drop a) else none

/-- The trailing `'{' => Json | _ => Unknown` arms of `DataFormat::detect`. -/
def detectJsonArm (v : List Nat) : Option DataFormat :=
  (sliceRange v 0 1).bind fun s =>
    if s = [0x7b] then some DataFormat.Json else some DataFormat.Unknown

/-- `DataFormat::detect` from `martin-tile-utils/src/lib.rs`, with each
match guard's slice-taking made explicit; `none` is a panic.  The `RIFF`
guard short-circuits: `&v[8..12]` is evaluated only when `&v[0..4]`
matched `RIFF`. -/
def detect (v : List Nat) : Option DataFormat :=
  (sliceRange v 0 2).bind fun s01 =>
    if s01 = [0x1f, 0x8b] then some DataFormat.GzipMvt else
  (sliceRange v 0 2).bind fun s02 =>
    if s02 = [0x78, 0x9c] then some DataFormat.ZlibMvt else
  (sliceRange v 0 8).bind fun s03 =>
    if s03 = [0x89, 0x50, 0x4e, 0x47, 0x0d, 0x0a, 0x1a, 0x0a] then some DataFormat.Png else
  (sliceRange v 0 6).bind fun s04 =>
    if s04 = [0x47, 0x49, 0x46, 0x38, 0x39, 0x61] then some DataFormat.Gif else
  (sliceRange v 0 3).bind fun s05 =>
    if s05 = [0xff, 0xd8, 0xff] then some DataFormat.Jpeg else
  (sliceRange v 0 4).bind fun s06 =>
    if s06 = [0x52, 0x49, 0x46, 0x46] then
      (sliceRange v 8 12).bind fun s07 =>
        if s07 = [0x57, 0x45, 0x42, 0x50] then some DataFormat.Webp else detectJsonArm v
    else detectJsonArm v

/-- The classifier table as the specification words it (§4.1): pure
prefix matching, first match wins, `Unknown` otherwise. -/
def specClassify (v : List Nat) : DataFormat :=
  if v.take 2 = [0x1f, 0x8b] then DataFormat.GzipMvt else
  if v.take 2 = [0x78, 0x9c] then DataFormat.ZlibMvt else
  if v.take 8 = [0x89, 0x50, 0x4e, 0x47, 0x0d, 0x0a, 0x1a, 0x0a] then DataFormat.Png else
  if v.take 6 = [0x47, 0x49, 0x46, 0x38, 0x39, 0x61] then DataFormat.Gif else
  if v.take 3 = [0xff, 0xd8, 0xff] then DataFormat.Jpeg else
  if v.take 4 = [0x52, 0x49, 0x46, 0x46] ∧ (v.drop 8).take 4 = [0x57, 0x45, 0x42, 0x50] then
    DataFormat.Webp else
  if v.take 1 = [0x7b] then DataFormat.Json else
  DataFormat.Unknown

theorem sliceRange_of_le {v : List Nat} {a b : Nat} (hab : a ≤ b) (hb : b ≤ v.length) :
    sliceRange v a b = some ((v.take b).drop a) := by
  simp [sliceRange, hab, hb]

/-- C1: the code, as written, panics on a byte slice shorter than the first
candidate signature: `&v[0..2]` is taken unconditionally. -/
theorem c1_detect_panics_on_empty : detect [] = none := by
  decide

/-- C6: on any byte slice long enough for every candidate signature
(length ≥ 12, the WEBP signature spans bytes 0..12), `DataFormat::detect`
returns exactly the first matching row of the specification's fixed
signature table, and `Unknown` when no signature matches. -/
theorem c6_detect_eq_specClassify (v : List Nat) (h : 12 ≤ v.length) :
    detect v = some (specClassify v) := by
  have h2 : (2 : Nat) ≤ v.length := by omega
  have h8 : (8 : Nat) ≤ v.length := by omega
  have h6 : (6 : Nat) ≤ v.length := by omega
  have h3 : (3 : Nat) ≤ v.length := by omega
  have h4 : (4 : Nat) ≤ v.length := by omega
  have h1 : (1 : Nat) ≤ v.length := by omega
  have e2 := sliceRange_of_le (v := v) (a := 0) (b := 2) (by omega) h2
  have e8 := sliceRange_of_le (v := v) (a := 0) (b := 8) (by omega) h8
  have e6 := sliceRange_of_le (v := v) (a := 0) (b := 6) (by omega) h6
  have e3 := sliceRange_of_le (v := v) (a := 0) (b := 3) (by omega) h3
  have e4 := sliceRange_of_le (v := v) (a := 0) (b := 4) (by omega) h4
  have e1 := sliceRange_of_le (v := v) (a := 0) (b := 1) (by omega) h1
  have e12 := sliceRange_of_le (v := v) (a := 8) (b := 12) (by omega) h
  have hdt : (v.take 12).drop 8 = (v.drop 8).take 4 := by
    rw [List.drop_take]
  simp only [List.drop_zero] at e2 e8 e6 e3 e4 e1
  rw [hdt] at e12
  unfold detect detectJsonArm specClassify
  rw [e2, e8, e6, e3, e4, e1, e12]
  by_cases g1 : v.take 2 = [0x1f, 0x8b] <;>
    by_cases g2 : v.take 2 = [0x78, 0x9c] <;>
      simp only [g1, g2, if_true, if_false, Option.bind_some] <;>
  first
  | rfl
  | (by_cases g3 : v.take 8 = [0x89, 0x50, 0x4e, 0x47, 0x0d, 0x0a, 0x1a, 0x0a] <;>
     by_cases g4 : v.take 6 = [0x47, 0x49, 0x46, 0x38, 0x39, 0x61] <;>
     by_cases g5 : v.take 3 = [0xff, 0xd8, 0xff] <;>
     by_cases g6 : v.take 4 = [0x52, 0x49, 0x46, 0x46] <;>
     by_cases g7 : (v.drop 8).take 4 = [0x57, 0x45, 0x42, 0x50] <;>
     by_cases g8 : v.take 1 = [0x7b] <;>
     simp [g1, g2, g3, g4, g5, g6, g7, g8])

/-- Witness for C6 at a concrete 12-byte PNG-magic slice. -/
theorem c6_detect_eq_specClassify_witness :
    12 ≤ ([0x89, 0x50, 0x4e, 0x47, 0x0d, 0x0a, 0x1a, 0x0a, 0, 0, 0, 0] : List Nat).length ∧
      detect [0x89, 0x50, 0x4e, 0x47, 0x0d, 0x0a, 0x1a, 0x0a, 0, 0, 0, 0] =
        some (specClassify [0x89, 0x50, 0x4e, 0x47, 0x0d, 0x0a, 0x1a, 0x0a, 0, 0, 0, 0]) :=
  ⟨by decide, c6_detect_eq_specClassify _ (by decide)⟩

/-! ### Association lists (Rust `HashMap` / `HashSet` embedding) -/

/-- Lookup in an association list (embeds `HashMap::get`). -/
def lookupA {α : Type} : List (String × α) → String → Option α
  | [], _ => none
  | e :: t, q => if e.1 = q then some e.2 else lookupA t q

/-- The keys of an association list. -/
def keysOf {α : Type} (m : List (String × α)) : List String := m.map (·.1)

theorem lookupA_eq_none_iff {α : Type} (m : List (String × α)) (q : String) :
    lookupA m q = none ↔ q ∉ keysOf m := by
  induction m with
  | nil => simp [lookupA, keysOf]
  | cons e t ih =>
    by_cases h : e.1 = q
    · subst h
      simp [lookupA, keysOf]
    · simp only [lookupA, if_neg h, keysOf, List.map_cons, List.mem_cons]
      rw [ih]
      simp only [keysOf]
      constructor
      · intro hx hor
        rcases hor with he | hm
        · exact h he.symm
        · exact hx hm
      · intro hx hm
        exact hx (Or.inr hm)

/-! ### The ID resolver

`IdResolver::resolve` lives in `src/source.rs`, which is not part of the
source tree (only its callers are).  It is modelled from the
specification, §4.2. -/

/-- Resolver state: the id ↦ signature bindings (newest first). -/
def IdR : Type := List (String × String)

/-- The candidate `format!("{requested_id}.{i}")` of the rename loop. -/
def candidate (id : String) (i : Nat) : String := id ++ "." ++ Nat.repr i

/-- Modelled from the spec: the rename loop — "return `requested_id + ".1"`,
`+ ".2"`, … until an unseen ID is found; bind and return it."  The loop is
written with fuel; `resolveId` passes enough fuel for the fuel-exhausted
arm to be unreachable (`exists_free_candidate`). -/
def resolveLoop (m : IdR) (id sig : String) : Nat → Nat → String × IdR
  | 0, i => (candidate id i, (candidate id i, sig) :: m)
  | fuel + 1, i =>
    match lookupA m (candidate id i) with
    | none => (candidate id i, (candidate id i, sig) :: m)
    | some _ => resolveLoop m id sig fuel (i + 1)

/-- Modelled from the spec: `IdResolver::resolve` (§4.2) — an unseen ID is
returned verbatim and bound; an ID bound to the same signature is returned
verbatim; otherwise the rename loop runs. -/
def resolveId (m : IdR) (id sig : String) : String × IdR :=
  match lookupA m id with
  | none => (id, (id, sig) :: m)
  | some s => if s = sig then (id, m) else resolveLoop m id sig (m.length + 1) 1

/-! Injectivity of the decimal rename suffix, needed to show the rename
loop always terminates at a free candidate. -/

theorem toDigitsCore_eq_digits : ∀ (fuel n : Nat) (acc : List Char), 0 < n → n < 10 ^ fuel →
    Nat.toDigitsCore 10 fuel n acc = ((Nat.digits 10 n).map Nat.digitChar).reverse ++ acc := by
  intro fuel
  induction fuel with
  | zero => intro n acc hn hlt; simp at hlt; omega
  | succ f ih =>
    intro n acc hn hlt
    have hdig : Nat.digits 10 n = n % 10 :: Nat.digits 10 (n / 10) :=
      Nat.digits_def' (by norm_num) hn
    by_cases hdiv : n / 10 = 0
    · rw [Nat.toDigitsCore]
      simp only [hdiv, if_true, hdig, Nat.digits_zero, List.map, List.reverse_cons,
        List.reverse_nil, List.nil_append, List.map_nil, List.singleton_append]
    · have hpos : 0 < n / 10 := Nat.pos_of_ne_zero hdiv
      have hlt' : n / 10 < 10 ^ f := by
        rw [pow_succ, mul_comm] at hlt
        exact Nat.div_lt_of_lt_mul hlt
      rw [Nat.toDigitsCore]
      simp only [hdiv, if_false]
      rw [ih (n / 10) (Nat.digitChar (n % 10) :: acc) hpos hlt', hdig]
      simp [List.reverse_cons, List.append_assoc]

theorem toDigits_eq_digits (n : Nat) (hn : 0 < n) :
    Nat.toDigits 10 n = ((Nat.digits 10 n).map Nat.digitChar).reverse := by
  have hlt : n < 10 ^ (n + 1) :=
    lt_of_lt_of_le (Nat.lt_pow_self (by norm_num) n)
      (Nat.pow_le_pow_right (by norm_num) (Nat.le_succ n))
  rw [Nat.toDigits, toDigitsCore_eq_digits (n + 1) n [] hn hlt, List.append_nil]

theorem digitChar_inj_lt : ∀ a, a < 10 → ∀ b, b < 10 →
    Nat.digitChar a = Nat.digitChar b → a = b := by decide

theorem map_digitChar_inj : ∀ l1 l2 : List Nat, (∀ x ∈ l1, x < 10) → (∀ x ∈ l2, x < 10) →
    l1.map Nat.digitChar = l2.map Nat.digitChar → l1 = l2 := by
  intro l1
  induction l1 with
  | nil => intro l2 _ _ h; cases l2 <;> simp_all
  | cons a t ih =>
    intro l2 hb1 hb2 h
    cases l2 with
    | nil => simp_all
    | cons b t2 =>
      simp only [List.map, List.cons.injEq] at h
      have ha := hb1 a (by simp)
      have hbb := hb2 b (by simp)
      have : a = b := digitChar_inj_lt a ha b hbb h.1
      subst this
      have := ih t2 (fun x hx => hb1 x (by simp [hx])) (fun x hx => hb2 x (by simp [hx])) h.2
      simp [this]

theorem nat_repr_inj_pos (m n : Nat) (hm : 0 < m) (hn : 0 < n)
    (h : Nat.repr m = Nat.repr n) : m = n := by
  rw [Nat.repr, Nat.repr] at h
  have hls : Nat.toDigits 10 m = Nat.toDigits 10 n := by
    have := congrArg String.data h
    simpa [List.asString] using this
  rw [toDigits_eq_digits m hm, toDigits_eq_digits n hn] at hls
  have hmaps := List.reverse_injective hls
  have hdigs : Nat.digits 10 m = Nat.digits 10 n :=
    map_digitChar_inj _ _ (fun x hx => Nat.digits_lt_base (by norm_num) hx)
      (fun x hx => Nat.digits_lt_base (by norm_num) hx) hmaps
  have := congrArg (Nat.ofDigits 10) hdigs
  simpa [Nat.ofDigits_digits] using this

theorem candidate_inj (id : String) (i j : Nat) (hi : 1 ≤ i) (hj : 1 ≤ j)
    (h : candidate id i = candidate id j) : i = j := by
  have hdata := congrArg String.data h
  simp only [candidate, String.data_append] at hdata
  have hrepr : (Nat.repr i).data = (Nat.repr j).data :=
    List.append_cancel_left hdata
  exact nat_repr_inj_pos i j hi hj (by apply String.ext; exact hrepr)

/-- Pigeonhole: among the first `m.length + 1` rename candidates, one is
unbound in `m`. -/
theorem exists_free_candidate (m : IdR) (id : String) :
    ∃ k, 1 ≤ k ∧ k ≤ m.length + 1 ∧ lookupA m (candidate id k) = none := by
  by_contra hcon
  push_neg at hcon
  have hmem : ∀ k, 1 ≤ k → k ≤ m.length + 1 → candidate id k ∈ keysOf m := by
    intro k h1 h2
    have := hcon k h1 h2
    by_contra hmemn
    exact this ((lookupA_eq_none_iff m (candidate id k)).2 hmemn)
  set C : List String := (List.range (m.length + 1)).map (fun j => candidate id (j + 1)) with hC
  have hnodup : C.Nodup := by
    refine List.Nodup.map_on ?_ (List.nodup_range _)
    intro x hx y hy hxy
    have := candidate_inj id (x + 1) (y + 1) (by omega) (by omega) hxy
    omega
  have hsub : C ⊆ keysOf m := by
    intro c hc
    rw [hC, List.mem_map] at hc
    obtain ⟨j, hj, rfl⟩ := hc
    rw [List.mem_range] at hj
    exact hmem (j + 1) (by omega) (by omega)
  have hlen : C.length ≤ (keysOf m).length := (hnodup.subperm hsub).length_le
  have hclen : C.length = m.length + 1 := by simp [hC]
  have hklen : (keysOf m).length = m.length := by simp [keysOf]
  omega

/-- The rename loop returns the first free candidate at index ≥ `i`,
provided one exists within the fuel. -/
theorem resolveLoop_spec (m : IdR) (id sig : String) :
    ∀ (fuel i : Nat), (∃ j, i ≤ j ∧ j < i + fuel ∧ lookupA m (candidate id j) = none) →
    ∃ k, i ≤ k ∧ lookupA m (candidate id k) = none ∧
      (∀ j, i ≤ j → j < k → lookupA m (candidate id j) ≠ none) ∧
      resolveLoop m id sig fuel i = (candidate id k, (candidate id k, sig) :: m) := by
  intro fuel
  induction fuel with
  | zero =>
    rintro i ⟨j, h1, h2, _⟩
    omega
  | succ f ih =>
    rintro i ⟨j, hij, hlt, hfree⟩
    by_cases hc : lookupA m (candidate id i) = none
    · exact ⟨i, le_refl i, hc, fun j' h1 h2 => by omega,
        by rw [resolveLoop]; rw [hc]⟩
    · have hji : i + 1 ≤ j := by
        rcases Nat.lt_or_ge i j with h | h
        · omega
        · have : j = i := by omega
          subst this
          exact absurd hfree hc
      obtain ⟨k, hk1, hk2, hk3, hk4⟩ := ih (i + 1) ⟨j, hji, by omega, hfree⟩
      obtain ⟨v, hv⟩ := Option.ne_none_iff_exists'.1 hc
      refine ⟨k, by omega, hk2, ?_, ?_⟩
      · intro j' h1 h2
        rcases Nat.eq_or_lt_of_le h1 with h | h
        · rw [← h]; exact hc
        · exact hk3 j' h (by omega)
      · rw [resolveLoop]; rw [hv]; exact hk4

/-- The rename arm of `resolveId`: the first unseen candidate is returned
and bound. -/
theorem resolveId_rename (m : IdR) (id sig s' : String)
    (h : lookupA m id = some s') (hne : s' ≠ sig) :
    ∃ k, 1 ≤ k ∧ lookupA m (candidate id k) = none ∧
      (∀ j, 1 ≤ j → j < k → lookupA m (candidate id j) ≠ none) ∧
      resolveId m id sig = (candidate id k, (candidate id k, sig) :: m) := by
  obtain ⟨j, hj1, hj2, hj3⟩ := exists_free_candidate m id
  obtain ⟨k, hk1, hk2, hk3, hk4⟩ :=
    resolveLoop_spec m id sig (m.length + 1) 1 ⟨j, hj1, by omega, hj3⟩
  have hred : resolveId m id sig = resolveLoop m id sig (m.length + 1) 1 := by
    simp [resolveId, h, hne]
  exact ⟨k, hk1, hk2, hk3, by rw [hred]; exact hk4⟩

/-- C3, counterexample: with `"a"` already bound to a different signature,
resolving `("a", "s2")` twice does not return the same output — the first
call returns `"a.1"`, re-resolving the identical pair afterwards returns
`"a.2"` (the spec's rename loop stops only at unseen IDs, so the claim's
three clauses cannot all hold). -/
theorem c3_counterexample :
    resolveId [("a", "s1")] "a" "s2" = ("a.1", [("a.1", "s2"), ("a", "s1")]) ∧
      resolveId [("a.1", "s2"), ("a", "s1")] "a" "s2" =
        ("a.2", [("a.2", "s2"), ("a.1", "s2"), ("a", "s1")]) ∧
      ("a.1" : String) ≠ "a.2" := by
  refine ⟨?_, ?_, by decide⟩ <;> rfl

/-- C3, amended: an unseen ID is returned verbatim and bound, and such a
resolution is idempotent; an ID bound to the requested signature is
returned verbatim; an ID bound to a different signature is renamed to the
first unseen candidate `id.k`, which is then bound.  (Idempotence of a
renamed resolution does not hold, see the counterexample.) -/
theorem c3_resolveId_contract (m : IdR) (id sig : String) :
    (lookupA m id = none →
      resolveId m id sig = (id, (id, sig) :: m) ∧
        resolveId ((id, sig) :: m) id sig = (id, (id, sig) :: m)) ∧
    (lookupA m id = some sig → resolveId m id sig = (id, m)) ∧
    (∀ s', lookupA m id = some s' → s' ≠ sig →
      ∃ k, 1 ≤ k ∧ lookupA m (candidate id k) = none ∧
        (∀ j, 1 ≤ j → j < k → lookupA m (candidate id j) ≠ none) ∧
        resolveId m id sig = (candidate id k, (candidate id k, sig) :: m)) := by
  refine ⟨?_, ?_, ?_⟩
  · intro h
    constructor
    · rw [resolveId, h]
    · rw [resolveId]
      simp [lookupA]
  · intro h
    simp [resolveId, h]
  · intro s' h hne
    exact resolveId_rename m id sig s' h hne

/-- Witness for C3's amended contract on a concrete fresh resolution. -/
theorem c3_resolveId_contract_witness :
    lookupA ([] : IdR) "pts" = none ∧
      resolveId [] "pts" "/p.pmtiles" = ("pts", [("pts", "/p.pmtiles")]) :=
  ⟨rfl, ((c3_resolveId_contract [] "pts" "/p.pmtiles").1 rfl).1⟩

/-! ### More `HashMap`/`HashSet` operations and lemmas -/

/-- `HashMap::insert`: replace an existing binding in place, else append. -/
def mapInsert {α : Type} (k : String) (v : α) : List (String × α) → List (String × α)
  | [] => [(k, v)]
  | e :: t => if e.1 = k then (k, v) :: t else e :: mapInsert k v t

/-- `HashMap::entry(k).or_insert_with(v)`: insert only when absent. -/
def entryOrInsert {α : Type} (k : String) (v : α) (m : List (String × α)) :
    List (String × α) :=
  if (lookupA m k).isSome then m else m ++ [(k, v)]

/-- `HashSet::insert`. -/
def setInsert (s : String) (l : List String) : List String :=
  if s ∈ l then l else l ++ [s]

theorem lookupA_isSome_iff_mem {α : Type} (m : List (String × α)) (q : String) :
    (lookupA m q).isSome ↔ q ∈ keysOf m := by
  rcases h : lookupA m q with _ | v
  · simp [(lookupA_eq_none_iff m q).1 h]
  · have h2 : q ∈ keysOf m := by
      have hne : ¬lookupA m q = none := by simp [h]
      rw [lookupA_eq_none_iff, not_not] at hne
      exact hne
    simp [h, h2]

theorem lookupA_append {α : Type} (m1 m2 : List (String × α)) (q : String) :
    lookupA (m1 ++ m2) q = ((lookupA m1 q).or (lookupA m2 q)) := by
  induction m1 with
  | nil => simp [lookupA]
  | cons e t ih =>
    by_cases h : e.1 = q <;> simp [lookupA, h, ih]

theorem lookupA_mapInsert_self {α : Type} (m : List (String × α)) (k : String) (v : α) :
    lookupA (mapInsert k v m) k = some v := by
  induction m with
  | nil => simp [mapInsert, lookupA]
  | cons e t ih =>
    by_cases h : e.1 = k <;> simp [mapInsert, lookupA, h, ih]

theorem lookupA_mapInsert_ne {α : Type} (m : List (String × α)) (k k' : String) (v : α)
    (h : k' ≠ k) : lookupA (mapInsert k v m) k' = lookupA m k' := by
  induction m with
  | nil =>
    have hne : ¬(k = k') := fun he => h he.symm
    simp [mapInsert, lookupA, hne]
  | cons e t ih =>
    by_cases he : e.1 = k
    · have hkk : ¬(k = k') := fun he2 => h he2.symm
      have hne : ¬(e.1 = k') := by rw [he]; exact hkk
      simp [mapInsert, he, lookupA, hne, hkk]
    · simp [mapInsert, he, lookupA, ih]

theorem lookupA_entryOrInsert_ne {α : Type} (m : List (String × α)) (k k' : String) (v : α)
    (h : k' ≠ k) : lookupA (entryOrInsert k v m) k' = lookupA m k' := by
  unfold entryOrInsert
  by_cases hs : (lookupA m k).isSome
  · simp [hs]
  · have hne : ¬(k = k') := fun he => h he.symm
    simp [hs, lookupA_append, lookupA, hne]

theorem lookupA_entryOrInsert_absent {α : Type} (m : List (String × α)) (k : String) (v : α)
    (h : lookupA m k = none) : lookupA (entryOrInsert k v m) k = some v := by
  unfold entryOrInsert
  simp [h, lookupA_append, lookupA]

theorem lookupA_entryOrInsert_present {α : Type} (m : List (String × α)) (k : String)
    (v w : α) (h : lookupA m k = some w) : lookupA (entryOrInsert k v m) k = some w := by
  unfold entryOrInsert
  simp [h]

theorem keysOf_mapInsert_mem {α : Type} (m : List (String × α)) (k k' : String) (v : α) :
    k' ∈ keysOf (mapInsert k v m) ↔ k' = k ∨ k' ∈ keysOf m := by
  rw [← lookupA_isSome_iff_mem, ← lookupA_isSome_iff_mem]
  by_cases h : k' = k
  · subst h
    simp [lookupA_mapInsert_self]
  · rw [lookupA_mapInsert_ne m k k' v h]
    simp [h]

theorem keysOf_entryOrInsert_mem {α : Type} (m : List (String × α)) (k k' : String) (v : α) :
    k' ∈ keysOf (entryOrInsert k v m) ↔ k' = k ∨ k' ∈ keysOf m := by
  by_cases h : k' = k
  · subst h
    rw [← lookupA_isSome_iff_mem, ← lookupA_isSome_iff_mem]
    rcases hq : lookupA m k' with _ | w
    · simp [lookupA_entryOrInsert_absent m k' v hq]
    · simp [lookupA_entryOrInsert_present m k' v w hq, hq]
  · rw [← lookupA_isSome_iff_mem, ← lookupA_isSome_iff_mem,
      lookupA_entryOrInsert_ne m k k' v h]
    simp [h]

theorem keysOf_mapInsert_nodup {α : Type} (m : List (String × α)) (k : String) (v : α)
    (h : (keysOf m).Nodup) : (keysOf (mapInsert k v m)).Nodup := by
  induction m with
  | nil => simp [mapInsert, keysOf]
  | cons e t ih =>
    simp only [keysOf, List.map_cons, List.nodup_cons] at h
    by_cases he : e.1 = k
    · subst he
      simp only [mapInsert, if_pos rfl]
      simpa [keysOf] using h
    · simp only [mapInsert, if_neg he, keysOf, List.map_cons, List.nodup_cons]
      refine ⟨?_, by simpa [keysOf] using ih (by simpa [keysOf] using h.2)⟩
      intro hmem
      have hm2 := (keysOf_mapInsert_mem t k e.1 v).1 (by simpa [keysOf] using hmem)
      rcases hm2 with h1 | h1
      · exact he h1
      · exact h.1 (by simpa [keysOf] using h1)

theorem keysOf_entryOrInsert_nodup {α : Type} (m : List (String × α)) (k : String) (v : α)
    (h : (keysOf m).Nodup) : (keysOf (entryOrInsert k v m)).Nodup := by
  unfold entryOrInsert
  by_cases hs : (lookupA m k).isSome
  · simpa [hs]
  · have hk : k ∉ keysOf m := by
      rw [← lookupA_isSome_iff_mem]
      exact hs
    rw [if_neg hs]
    simp only [keysOf, List.map_append, List.map]
    rw [List.nodup_append]
    refine ⟨by simpa [keysOf] using h, List.nodup_singleton k, ?_⟩
    intro a ha hak
    rw [List.mem_singleton] at hak
    subst hak
    exact hk (by simpa [keysOf] using ha)

/-! ### `get_table_sources` from `src/pg/table_source.rs`

A discovery row is `(f_table_schema, f_table_name, f_geometry_column,
srid, type, properties)`; the per-row bounds query
(`query_one(bounds_query).ok().flatten().and_then(polygon_to_bbox)`) is
embedded as an abstract function `boundsOf` into an abstract bounds type
`B`. -/

structure TableRow where
  schema : String
  tableName : String
  geometryColumn : String
  srid : Int
  geometryType : Option String
  properties : List (String × String)
deriving DecidableEq

/-- Rust `as u32` on an `i32` value: two's-complement wrap. -/
def asU32 (i : Int) : Nat := (i % (2 ^ 32)).toNat

/-- The `TableSource` struct of `src/pg/table_source.rs`, with `bounds`
over an abstract bounds type `B`. -/
structure TableSource (B : Type) where
  id : String
  schema : String
  table : String
  srid : Nat
  geometry_column : String
  id_column : Option String
  minzoom : Option Nat
  maxzoom : Option Nat
  bounds : Option B
  extent : Option Nat
  buffer : Option Nat
  clip_geom : Option Bool
  geometry_type : Option String
  properties : List (String × String)
  unrecognized : List (String × String)
deriving DecidableEq

def DEFAULT_EXTENT : Nat := 4096
def DEFAULT_BUFFER : Nat := 64
def DEFAULT_CLIP_GEOM : Bool := true

/-- `format!("{schema}.{table}")`. -/
def shortId (r : TableRow) : String := r.schema ++ "." ++ r.tableName

/-- `format!("{schema}.{table}.{geometry_column}")`. -/
def explicitId (r : TableRow) : String :=
  r.schema ++ "." ++ r.tableName ++ "." ++ r.geometryColumn

/-- The `TableSource` value built for one discovery row (the `source` /
`explicit_source` of the loop body differ only in the `id` field). -/
def mkTableSource {B : Type} (r : TableRow) (srid : Nat) (bounds : Option B)
    (theId : String) : TableSource B :=
  { id := theId
    schema := r.schema
    table := r.tableName
    id_column := none
    geometry_column := r.geometryColumn
    bounds := bounds
    minzoom := none
    maxzoom := none
    srid := srid
    extent := some DEFAULT_EXTENT
    buffer := some DEFAULT_BUFFER
    clip_geom := some DEFAULT_CLIP_GEOM
    geometry_type := r.geometryType
    properties := r.properties
    unrecognized := [] }

def sridDefaultMsg (id : String) (d : Int) : String :=
  "\"" ++ id ++ "\" has SRID 0, using the provided default SRID " ++ toString d

def sridSkipMsg (id : String) : String :=
  "\"" ++ id ++ "\" has SRID 0, skipping. To use this table source, you must specify the SRID using the config file or provide the default SRID"

def dupListMsg (s : String) : String :=
  "These table sources have multiple geometry columns: " ++ s

def dupHintMsg : String :=
  "You can specify the geometry column in the table source name to access particular geometry in vector tile, eg. \"schema_name.table_name.geometry_column\""

/-- State of the `get_table_sources` loop: the registry under
construction, the duplicate-short-ID set, and the emitted warnings. -/
structure TsState (B : Type) where
  sources : List (String × TableSource B)
  duplicates : List String
  warnings : List String

/-- The two registry insertions at the end of the loop body:
`sources.entry(id).or_insert_with(source)` then
`sources.insert(explicit_id, explicit_source)`. -/
def registerRow {B : Type} (boundsOf : TableRow → Option B) (r : TableRow) (srid : Nat)
    (st : TsState B) : TsState B :=
  { st with
    sources :=
      mapInsert (explicitId r) (mkTableSource r srid (boundsOf r) (explicitId r))
        (entryOrInsert (shortId r) (mkTableSource r srid (boundsOf r) (shortId r))
          st.sources) }

/-- One iteration of the `for row in &rows` loop of `get_table_sources`:
the duplicate check, then SRID-0 handling (apply `default_srid` with a
warning, or skip with a warning), then the bounds query and the two
insertions. -/
def processRow {B : Type} (boundsOf : TableRow → Option B) (defaultSrid : Option Int)
    (st : TsState B) (r : TableRow) : TsState B :=
  let id := shortId r
  let dups := if (lookupA st.sources id).isSome then setInsert id st.duplicates
    else st.duplicates
  if r.srid = 0 then
    match defaultSrid with
    | none =>
        { st with duplicates := dups, warnings := st.warnings ++ [sridSkipMsg id] }
    | some d =>
        registerRow boundsOf r (asU32 d)
          { st with duplicates := dups,
                    warnings := st.warnings ++ [sridDefaultMsg id d] }
  else
    registerRow boundsOf r (asU32 r.srid) { st with duplicates := dups }

/-- `get_table_sources`: fold the loop body over the discovery rows, then
emit the duplicate-column warnings when the duplicate set is non-empty. -/
def getTableSources {B : Type} (boundsOf : TableRow → Option B) (defaultSrid : Option Int)
    (rows : List TableRow) : TsState B :=
  let st := rows.foldl (processRow boundsOf defaultSrid) ⟨[], [], []⟩
  if st.duplicates.isEmpty then st
  else
    { st with
      warnings := st.warnings ++
        [dupListMsg (String.intercalate ", " st.duplicates), dupHintMsg] }

/-- C8: SRID-0 handling in `get_table_sources`.  For a discovery row with
`srid == 0`: with a configured `default_srid` the produced table source
carries the default SRID (as the `i32 → u32` cast of the default, which is
the default itself for any sane non-negative SRID) and the
default-SRID warning is logged; without one the row is skipped — the
registry is left untouched — and the skip warning is logged. -/
theorem c8_srid_zero_handling {B : Type} (boundsOf : TableRow → Option B)
    (st : TsState B) (r : TableRow) (h0 : r.srid = 0) :
    (∀ d : Int,
      lookupA (processRow boundsOf (some d) st r).sources (explicitId r) =
          some (mkTableSource r (asU32 d) (boundsOf r) (explicitId r)) ∧
        (mkTableSource r (asU32 d) (boundsOf r) (explicitId r)).srid = asU32 d ∧
        (0 ≤ d → d < 2 ^ 32 → (asU32 d : Int) = d) ∧
        (processRow boundsOf (some d) st r).warnings =
          st.warnings ++ [sridDefaultMsg (shortId r) d]) ∧
    ((processRow boundsOf none st r).sources = st.sources ∧
      (processRow boundsOf none st r).warnings =
        st.warnings ++ [sridSkipMsg (shortId r)]) := by
  constructor
  · intro d
    refine ⟨?_, rfl, ?_, ?_⟩
    · simp [processRow, h0, registerRow, lookupA_mapInsert_self]
    · intro hd0 hdlt
      rw [asU32, Int.emod_eq_of_lt hd0 hdlt, Int.toNat_of_nonneg hd0]
    · simp [processRow, h0, registerRow]
  · constructor
    · simp [processRow, h0]
    · simp [processRow, h0]

/-- Witness for C8 at a concrete SRID-0 row with `default_srid: 900913`. -/
theorem c8_srid_zero_handling_witness :
    (⟨"public", "tbl", "geom", 0, none, []⟩ : TableRow).srid = 0 ∧
      lookupA
          (processRow (fun _ => (none : Option Unit)) (some 900913) ⟨[], [], []⟩
            ⟨"public", "tbl", "geom", 0, none, []⟩).sources
          (explicitId ⟨"public", "tbl", "geom", 0, none, []⟩) =
        some (mkTableSource ⟨"public", "tbl", "geom", 0, none, []⟩ (asU32 900913) none
          (explicitId ⟨"public", "tbl", "geom", 0, none, []⟩)) :=
  ⟨rfl,
    ((c8_srid_zero_handling (fun _ => (none : Option Unit)) ⟨[], [], []⟩
      ⟨"public", "tbl", "geom", 0, none, []⟩ rfl).1 900913).1⟩

/-! ### The `get_tile` error message of `TableSource` (C9) -/

/-- Tile coordinates (`Xyz` lives in the absent `src/source.rs`; the
specification gives `{z: u8, x: u32, y: u32}`). -/
structure Xyz where
  z : Nat
  x : Nat
  y : Nat
deriving DecidableEq

/-- An apostrophe, kept out of string literals. -/
def apos : String := String.singleton (Char.ofNat 39)

/-- The error message built by `TableSource::get_tile` via
`prettify_error!(error, r#"Can't get "{}" tile at /{}/{}/{}"#, self.id,
xyz.z, xyz.x, xyz.z)` — note the source passes `xyz.z` again as the last
argument, not `xyz.y`. -/
def getTileErrMsg (id : String) (xyz : Xyz) : String :=
  "Can" ++ apos ++ "t get \"" ++ id ++ "\" tile at /" ++
    Nat.repr xyz.z ++ "/" ++ Nat.repr xyz.x ++ "/" ++ Nat.repr xyz.z

/-- C9: the database tile error reports the coordinate as `/z/x/z`, with
`z` repeated in place of `y`, contradicting the claim's `/z/x/y`: at tile
`(z, x, y) = (1, 2, 3)` the message ends in `/1/2/1`, not `/1/2/3`. -/
theorem c9_get_tile_error_message :
    getTileErrMsg "src" ⟨1, 2, 3⟩ = "Can" ++ apos ++ "t get \"src\" tile at /1/2/1" ∧
      getTileErrMsg "src" ⟨1, 2, 3⟩ ≠ "Can" ++ apos ++ "t get \"src\" tile at /1/2/3" := by
  constructor
  · rfl
  · decide

/-! ### The shape of the registry built by `get_table_sources` (C10) -/

/-- The SRID stored for a discovery row that survives SRID-0 handling. -/
def effSrid (defaultSrid : Option Int) (r : TableRow) : Nat :=
  if r.srid = 0 then asU32 (defaultSrid.getD 0) else asU32 r.srid

/-- The first discovery row carrying the same `schema.table` as `r`. -/
def firstOfTable (rows : List TableRow) (r : TableRow) : TableRow :=
  (rows.find? (fun q => shortId q == shortId r)).getD r

/-- A row survives SRID-0 handling (`srid ≠ 0`, or a default is set). -/
def Survives (defaultSrid : Option Int) (r : TableRow) : Prop :=
  ¬(r.srid = 0 ∧ defaultSrid = none)

theorem processRow_sources_of_surv {B : Type} (boundsOf : TableRow → Option B)
    (defaultSrid : Option Int) (st : TsState B) (r : TableRow)
    (h : Survives defaultSrid r) :
    (processRow boundsOf defaultSrid st r).sources =
      mapInsert (explicitId r)
        (mkTableSource r (effSrid defaultSrid r) (boundsOf r) (explicitId r))
        (entryOrInsert (shortId r)
          (mkTableSource r (effSrid defaultSrid r) (boundsOf r) (shortId r))
          st.sources) := by
  by_cases h0 : r.srid = 0
  · rcases hds : defaultSrid with _ | d
    · exact absurd ⟨h0, hds⟩ h
    · simp [processRow, h0, registerRow, effSrid]
  · rcases hds : defaultSrid with _ | d <;> simp [processRow, h0, registerRow, effSrid]

theorem processRow_duplicates_eq {B : Type} (boundsOf : TableRow → Option B)
    (defaultSrid : Option Int) (st : TsState B) (r : TableRow) :
    (processRow boundsOf defaultSrid st r).duplicates =
      if (lookupA st.sources (shortId r)).isSome then setInsert (shortId r) st.duplicates
      else st.duplicates := by
  by_cases h0 : r.srid = 0 <;> rcases defaultSrid with _ | d <;>
    simp [processRow, h0, registerRow]

theorem keysOf_processRow_mem {B : Type} (boundsOf : TableRow → Option B)
    (defaultSrid : Option Int) (st : TsState B) (r : TableRow)
    (h : Survives defaultSrid r) (k : String) :
    k ∈ keysOf (processRow boundsOf defaultSrid st r).sources ↔
      k = explicitId r ∨ k = shortId r ∨ k ∈ keysOf st.sources := by
  rw [processRow_sources_of_surv boundsOf defaultSrid st r h, keysOf_mapInsert_mem,
    keysOf_entryOrInsert_mem]

theorem keysOf_processRow_mono {B : Type} (boundsOf : TableRow → Option B)
    (defaultSrid : Option Int) (st : TsState B) (r : TableRow) (k : String)
    (hk : k ∈ keysOf st.sources) :
    k ∈ keysOf (processRow boundsOf defaultSrid st r).sources := by
  by_cases hs : Survives defaultSrid r
  · exact (keysOf_processRow_mem boundsOf defaultSrid st r hs k).2 (Or.inr (Or.inr hk))
  · have h0 : r.srid = 0 ∧ defaultSrid = none := not_not.1 hs
    rcases h0 with ⟨h0, hds⟩
    subst hds
    simpa [processRow, h0] using hk

theorem mem_setInsert_self (s : String) (l : List String) : s ∈ setInsert s l := by
  unfold setInsert
  by_cases h : s ∈ l <;> simp [h]

theorem mem_setInsert_of_mem (s a : String) (l : List String) (h : a ∈ l) :
    a ∈ setInsert s l := by
  unfold setInsert
  by_cases hs : s ∈ l <;> simp [hs, h]

theorem duplicates_processRow_mono {B : Type} (boundsOf : TableRow → Option B)
    (defaultSrid : Option Int) (st : TsState B) (r : TableRow) (a : String)
    (h : a ∈ st.duplicates) : a ∈ (processRow boundsOf defaultSrid st r).duplicates := by
  rw [processRow_duplicates_eq]
  by_cases hs : (lookupA st.sources (shortId r)).isSome <;>
    simp [hs, mem_setInsert_of_mem _ _ _ h, h]

theorem duplicates_foldl_mono {B : Type} (boundsOf : TableRow → Option B)
    (defaultSrid : Option Int) (rows : List TableRow) :
    ∀ (st : TsState B) (a : String), a ∈ st.duplicates →
      a ∈ (rows.foldl (processRow boundsOf defaultSrid) st).duplicates := by
  induction rows with
  | nil => intro st a h; simpa using h
  | cons q t ih =>
    intro st a h
    exact ih _ a (duplicates_processRow_mono boundsOf defaultSrid st q a h)

theorem keysOf_foldl_mono {B : Type} (boundsOf : TableRow → Option B)
    (defaultSrid : Option Int) (rows : List TableRow) :
    ∀ (st : TsState B) (k : String), k ∈ keysOf st.sources →
      k ∈ keysOf (rows.foldl (processRow boundsOf defaultSrid) st).sources := by
  induction rows with
  | nil => intro st k h; simpa using h
  | cons q t ih =>
    intro st k h
    exact ih _ k (keysOf_processRow_mono boundsOf defaultSrid st q k h)

theorem lookupA_entryOrInsert_of_some {α : Type} (m : List (String × α)) (k k' : String)
    (v w : α) (h : lookupA m k' = some w) :
    lookupA (entryOrInsert k v m) k' = some w := by
  by_cases he : k' = k
  · subst he
    exact lookupA_entryOrInsert_present m k' v w h
  · rw [lookupA_entryOrInsert_ne m k k' v he]
    exact h

theorem lookupA_foldl_preserved {B : Type} (boundsOf : TableRow → Option B)
    (defaultSrid : Option Int) (rows : List TableRow) :
    ∀ (st : TsState B) (k : String) (v : TableSource B), lookupA st.sources k = some v →
      (∀ r ∈ rows, explicitId r ≠ k) →
      lookupA (rows.foldl (processRow boundsOf defaultSrid) st).sources k = some v := by
  induction rows with
  | nil => intro st k v h _; simpa using h
  | cons q t ih =>
    intro st k v h hne
    refine ih _ k v ?_ (fun r hr => hne r (by simp [hr]))
    by_cases hs : Survives defaultSrid q
    · rw [processRow_sources_of_surv boundsOf defaultSrid st q hs,
        lookupA_mapInsert_ne _ _ _ _ (fun he => hne q (by simp) he.symm)]
      exact lookupA_entryOrInsert_of_some _ _ _ _ _ h
    · have h0 : q.srid = 0 ∧ defaultSrid = none := not_not.1 hs
      rcases h0 with ⟨h0, hds⟩
      subst hds
      simpa [processRow, h0] using h

theorem explicit_lookup_foldl {B : Type} (boundsOf : TableRow → Option B)
    (defaultSrid : Option Int) (rows : List TableRow) :
    ∀ (st : TsState B), (∀ r ∈ rows, Survives defaultSrid r) →
      (rows.map explicitId).Nodup →
      ∀ r ∈ rows,
        lookupA (rows.foldl (processRow boundsOf defaultSrid) st).sources (explicitId r) =
          some (mkTableSource r (effSrid defaultSrid r) (boundsOf r) (explicitId r)) := by
  induction rows with
  | nil => intro st _ _ r hr; simp at hr
  | cons q t ih =>
    intro st hsrid hnd r hr
    rcases List.mem_cons.1 hr with rfl | hrt
    · have hstep : lookupA (processRow boundsOf defaultSrid st r).sources (explicitId r) =
          some (mkTableSource r (effSrid defaultSrid r) (boundsOf r) (explicitId r)) := by
        rw [processRow_sources_of_surv boundsOf defaultSrid st r (hsrid r (by simp))]
        exact lookupA_mapInsert_self _ _ _
      refine lookupA_foldl_preserved boundsOf defaultSrid t _ _ _ hstep ?_
      intro r' hr' he
      have : explicitId r ∈ t.map explicitId := he ▸ List.mem_map_of_mem explicitId hr'
      exact (List.nodup_cons.1 (by simpa using hnd)).1 this
    · exact ih _ (fun r' hr' => hsrid r' (by simp [hr']))
        (List.nodup_cons.1 (by simpa using hnd)).2 r hrt

theorem short_lookup_foldl {B : Type} (boundsOf : TableRow → Option B)
    (defaultSrid : Option Int) (rows : List TableRow) :
    ∀ (st : TsState B), (∀ r ∈ rows, Survives defaultSrid r) →
      (∀ r1 ∈ rows, ∀ r2 ∈ rows, shortId r1 ≠ explicitId r2) →
      ∀ r ∈ rows, shortId r ∉ keysOf st.sources →
        lookupA (rows.foldl (processRow boundsOf defaultSrid) st).sources (shortId r) =
          some (mkTableSource (firstOfTable rows r)
            (effSrid defaultSrid (firstOfTable rows r))
            (boundsOf (firstOfTable rows r)) (shortId r)) := by
  induction rows with
  | nil => intro st _ _ r hr; simp at hr
  | cons q t ih =>
    intro st hsrid hcol r hr habs
    by_cases hqr : shortId q = shortId r
    · have hfirst : firstOfTable (q :: t) r = q := by
        unfold firstOfTable
        rw [List.find?_cons_of_pos _ (by simp [hqr])]
        rfl
      have habs2 : lookupA st.sources (shortId q) = none := by
        rw [lookupA_eq_none_iff, hqr]
        exact habs
      have hstep : lookupA (processRow boundsOf defaultSrid st q).sources (shortId q) =
          some (mkTableSource q (effSrid defaultSrid q) (boundsOf q) (shortId q)) := by
        rw [processRow_sources_of_surv boundsOf defaultSrid st q (hsrid q (by simp)),
          lookupA_mapInsert_ne _ _ _ _ (hcol q (by simp) q (by simp))]
        exact lookupA_entryOrInsert_absent _ _ _ habs2
      rw [hfirst, ← hqr]
      refine lookupA_foldl_preserved boundsOf defaultSrid t _ _ _ hstep ?_
      intro r' hr' he
      exact hcol q (by simp) r' (by simp [hr']) he.symm
    · have hrt : r ∈ t := by
        rcases List.mem_cons.1 hr with rfl | h
        · exact absurd rfl hqr
        · exact h
      have hfirst : firstOfTable (q :: t) r = firstOfTable t r := by
        unfold firstOfTable
        rw [List.find?_cons_of_neg _ (by simp [hqr])]
      rw [hfirst]
      refine ih _ (fun r' hr' => hsrid r' (by simp [hr']))
        (fun r1 h1 r2 h2 => hcol r1 (by simp [h1]) r2 (by simp [h2])) r hrt ?_
      intro hmem
      rcases (keysOf_processRow_mem boundsOf defaultSrid st q
          (hsrid q (by simp)) (shortId r)).1 hmem with he | hsq | hst
      · exact hcol r hr q (by simp) he
      · exact hqr hsq.symm
      · exact habs hst

theorem keysOf_foldl_mem {B : Type} (boundsOf : TableRow → Option B)
    (defaultSrid : Option Int) (rows : List TableRow) :
    ∀ (st : TsState B), (∀ r ∈ rows, Survives defaultSrid r) → ∀ k,
      k ∈ keysOf (rows.foldl (processRow boundsOf defaultSrid) st).sources ↔
        k ∈ keysOf st.sources ∨ ∃ r ∈ rows, k = explicitId r ∨ k = shortId r := by
  induction rows with
  | nil => intro st _ k; simp
  | cons q t ih =>
    intro st hsrid k
    rw [List.foldl_cons, ih _ (fun r' hr' => hsrid r' (by simp [hr'])) k,
      keysOf_processRow_mem boundsOf defaultSrid st q (hsrid q (by simp)) k]
    constructor
    · rintro ((he | hs | hst) | ⟨r, hrt, hro⟩)
      · exact Or.inr ⟨q, by simp, Or.inl he⟩
      · exact Or.inr ⟨q, by simp, Or.inr hs⟩
      · exact Or.inl hst
      · exact Or.inr ⟨r, by simp [hrt], hro⟩
    · rintro (hst | ⟨r, hrq, hro⟩)
      · exact Or.inl (Or.inr (Or.inr hst))
      · rcases List.mem_cons.1 hrq with rfl | hrt
        · rcases hro with he | hs
          · exact Or.inl (Or.inl he)
          · exact Or.inl (Or.inr (Or.inl hs))
        · exact Or.inr ⟨r, hrt, hro⟩

theorem keysOf_foldl_nodup {B : Type} (boundsOf : TableRow → Option B)
    (defaultSrid : Option Int) (rows : List TableRow) :
    ∀ (st : TsState B), (keysOf st.sources).Nodup →
      (keysOf (rows.foldl (processRow boundsOf defaultSrid) st).sources).Nodup := by
  induction rows with
  | nil => intro st h; simpa using h
  | cons q t ih =>
    intro st h
    refine ih _ ?_
    by_cases hs : Survives defaultSrid q
    · rw [processRow_sources_of_surv boundsOf defaultSrid st q hs]
      exact keysOf_mapInsert_nodup _ _ _ (keysOf_entryOrInsert_nodup _ _ _ h)
    · have h0 : q.srid = 0 ∧ defaultSrid = none := not_not.1 hs
      rcases h0 with ⟨h0, hds⟩
      subst hds
      simpa [processRow, h0] using h

theorem marked_dup_foldl {B : Type} (boundsOf : TableRow → Option B)
    (defaultSrid : Option Int) (rows : List TableRow) :
    ∀ (st : TsState B) (r : TableRow), r ∈ rows → shortId r ∈ keysOf st.sources →
      shortId r ∈ (rows.foldl (processRow boundsOf defaultSrid) st).duplicates := by
  induction rows with
  | nil => intro st r hr; simp at hr
  | cons q t ih =>
    intro st r hr hmem
    rcases List.mem_cons.1 hr with rfl | hrt
    · refine duplicates_foldl_mono boundsOf defaultSrid t _ _ ?_
      rw [processRow_duplicates_eq]
      rw [← lookupA_isSome_iff_mem] at hmem
      simp only [hmem, if_true]
      exact mem_setInsert_self _ _
    · exact ih _ r hrt (keysOf_processRow_mono boundsOf defaultSrid st q _ hmem)

theorem not_first_marked_foldl {B : Type} (boundsOf : TableRow → Option B)
    (defaultSrid : Option Int) (rows : List TableRow) :
    ∀ (st : TsState B), (∀ r ∈ rows, Survives defaultSrid r) →
      ∀ r ∈ rows, firstOfTable rows r ≠ r →
        shortId r ∈ (rows.foldl (processRow boundsOf defaultSrid) st).duplicates := by
  induction rows with
  | nil => intro st _ r hr; simp at hr
  | cons q t ih =>
    intro st hsrid r hr hnf
    rcases List.mem_cons.1 hr with rfl | hrt
    · exfalso
      apply hnf
      unfold firstOfTable
      rw [List.find?_cons_of_pos _ (by simp)]
      rfl
    · by_cases hqr : shortId q = shortId r
      · refine marked_dup_foldl boundsOf defaultSrid t _ r hrt ?_
        rw [keysOf_processRow_mem boundsOf defaultSrid st q (hsrid q (by simp))]
        exact Or.inr (Or.inl hqr.symm)
      · have hfirst : firstOfTable (q :: t) r = firstOfTable t r := by
          unfold firstOfTable
          rw [List.find?_cons_of_neg _ (by simp [hqr])]
        exact ih _ (fun r' hr' => hsrid r' (by simp [hr'])) r hrt (hfirst ▸ hnf)

theorem getTableSources_sources_eq {B : Type} (boundsOf : TableRow → Option B)
    (defaultSrid : Option Int) (rows : List TableRow) :
    (getTableSources boundsOf defaultSrid rows).sources =
      (rows.foldl (processRow boundsOf defaultSrid) ⟨[], [], []⟩).sources := by
  unfold getTableSources
  by_cases h : (rows.foldl (processRow boundsOf defaultSrid) ⟨[], [], []⟩).duplicates.isEmpty <;>
    simp [h]

theorem getTableSources_duplicates_eq {B : Type} (boundsOf : TableRow → Option B)
    (defaultSrid : Option Int) (rows : List TableRow) :
    (getTableSources boundsOf defaultSrid rows).duplicates =
      (rows.foldl (processRow boundsOf defaultSrid) ⟨[], [], []⟩).duplicates := by
  unfold getTableSources
  by_cases h : (rows.foldl (processRow boundsOf defaultSrid) ⟨[], [], []⟩).duplicates.isEmpty <;>
    simp [h]

/-- C10, amended: for discovery rows that all survive SRID-0 handling,
whose `schema.table.geometry_column` triples are pairwise distinct, and
whose generated short and explicit IDs never collide (as when the names
contain no dots), `get_table_sources` (i) registers every row under its
explicit ID; (ii) maps the short ID `schema.table` to a copy — differing
only in the `id` field — of the descriptor of the first row of that table,
later geometry columns never overwriting it; (iii) produces a registry
whose keys are exactly the explicit IDs plus the short IDs, without
duplicates (so one geometry column yields two entries, `N > 1` columns
yield `N` explicit entries plus one short alias); and (iv) marks the short
ID of every non-first geometry column as a duplicate, which only triggers
the duplicate warning. -/
theorem c10_registry_shape {B : Type} (boundsOf : TableRow → Option B)
    (defaultSrid : Option Int) (rows : List TableRow)
    (hsrid : ∀ r ∈ rows, Survives defaultSrid r)
    (hnd : (rows.map explicitId).Nodup)
    (hcol : ∀ r1 ∈ rows, ∀ r2 ∈ rows, shortId r1 ≠ explicitId r2) :
    (∀ r ∈ rows,
        lookupA (getTableSources boundsOf defaultSrid rows).sources (explicitId r) =
          some (mkTableSource r (effSrid defaultSrid r) (boundsOf r) (explicitId r))) ∧
      (∀ r ∈ rows,
        lookupA (getTableSources boundsOf defaultSrid rows).sources (shortId r) =
          some (mkTableSource (firstOfTable rows r)
            (effSrid defaultSrid (firstOfTable rows r))
            (boundsOf (firstOfTable rows r)) (shortId r))) ∧
      (keysOf (getTableSources boundsOf defaultSrid rows).sources).Nodup ∧
      (∀ k, k ∈ keysOf (getTableSources boundsOf defaultSrid rows).sources ↔
        ∃ r ∈ rows, k = explicitId r ∨ k = shortId r) ∧
      (∀ r ∈ rows, firstOfTable rows r ≠ r →
        shortId r ∈ (getTableSources boundsOf defaultSrid rows).duplicates) := by
  rw [getTableSources_sources_eq, getTableSources_duplicates_eq]
  refine ⟨?_, ?_, ?_, ?_, ?_⟩
  · exact explicit_lookup_foldl boundsOf defaultSrid rows _ hsrid hnd
  · intro r hr
    exact short_lookup_foldl boundsOf defaultSrid rows _ hsrid hcol r hr (by simp [keysOf])
  · exact keysOf_foldl_nodup boundsOf defaultSrid rows _ (by simp [keysOf])
  · intro k
    rw [keysOf_foldl_mem boundsOf defaultSrid rows _ hsrid k]
    simp [keysOf]
  · exact not_first_marked_foldl boundsOf defaultSrid rows _ hsrid

/-- C10, counterexample to the claim as stated: with dots inside table
names the generated IDs collide across tables, and a later row's explicit
insertion overwrites an earlier table's short-ID alias.  Row 1 is table
`"b.c"` of schema `"a"` (single geometry column `"g"`); its short ID is
`"a.b.c"`.  Row 2 is table `"b"` with geometry column `"c"`, whose
explicit ID is also `"a.b.c"`.  After resolution the key `"a.b.c"` holds
row 2's explicit descriptor (table `"b"`), not the descriptor of the first
geometry column of row 1's table. -/
theorem c10_counterexample :
    shortId ⟨"a", "b.c", "g", 4326, none, []⟩ = "a.b.c" ∧
      explicitId ⟨"a", "b", "c", 4326, none, []⟩ = "a.b.c" ∧
      lookupA
          (getTableSources (fun _ => (none : Option Unit)) none
            [⟨"a", "b.c", "g", 4326, none, []⟩, ⟨"a", "b", "c", 4326, none, []⟩]).sources
          "a.b.c" =
        some (mkTableSource ⟨"a", "b", "c", 4326, none, []⟩ (asU32 4326) none "a.b.c") ∧
      mkTableSource (⟨"a", "b", "c", 4326, none, []⟩ : TableRow) (asU32 4326)
          (none : Option Unit) "a.b.c" ≠
        mkTableSource (⟨"a", "b.c", "g", 4326, none, []⟩ : TableRow) (asU32 4326)
          (none : Option Unit) "a.b.c" := by
  refine ⟨rfl, rfl, ?_, by decide⟩
  rfl

/-- Witness for C10's amended statement on a two-geometry-column table. -/
theorem c10_registry_shape_witness :
    lookupA
        (getTableSources (fun _ => (none : Option Unit)) none
          [⟨"s", "t", "g1", 4326, none, []⟩, ⟨"s", "t", "g2", 4326, none, []⟩]).sources
        (shortId ⟨"s", "t", "g2", 4326, none, []⟩) =
      some (mkTableSource ⟨"s", "t", "g1", 4326, none, []⟩
        (effSrid none ⟨"s", "t", "g1", 4326, none, []⟩) none
        (shortId ⟨"s", "t", "g2", 4326, none, []⟩)) := by
  have h :=
    (c10_registry_shape (fun _ => (none : Option Unit)) none
      [⟨"s", "t", "g1", 4326, none, []⟩, ⟨"s", "t", "g2", 4326, none, []⟩]
      (by intro r hr; fin_cases hr <;> simp [Survives])
      (by decide)
      (by intro r1 h1 r2 h2; fin_cases h1 <;> fin_cases h2 <;> decide)).2.1
      ⟨"s", "t", "g2", 4326, none, []⟩ (by simp)
  have hfirst : firstOfTable
      [⟨"s", "t", "g1", 4326, none, []⟩, ⟨"s", "t", "g2", 4326, none, []⟩]
      ⟨"s", "t", "g2", 4326, none, []⟩ = ⟨"s", "t", "g1", 4326, none, []⟩ := by decide
  rw [hfirst] at h
  exact h

/-! ### `OneOrMany`, file-config types, and `Config::finalize` (C5, C7)

`OneOrMany` lives in the absent `src/utils.rs`; it is modelled from the
specification (§9: "Model as a tagged variant `One(T) | Many(Vec<T>)`").
The file-config types follow `src/file_config.rs`; paths are embedded as
strings. -/

inductive OneOrMany (α : Type) where
  | one (a : α)
  | many (l : List α)
deriving DecidableEq

/-- Iteration over a `OneOrMany`. -/
def OneOrMany.toList {α : Type} : OneOrMany α → List α
  | .one a => [a]
  | .many l => l

/-- Modelled from the spec: `OneOrMany::is_empty` (`src/utils.rs` is
absent) — a single value is never empty, a sequence is empty when the
vector is. -/
def OneOrMany.is_empty {α : Type} : OneOrMany α → Bool
  | .one _ => false
  | .many l => l.isEmpty

/-- Modelled from the spec: `OneOrMany::new_opt` (`src/utils.rs` is
absent) — repack a vector into the scalar-or-sequence YAML shape, `none`
when empty. -/
def OneOrMany.new_opt {α : Type} (l : List α) : Option (OneOrMany α) :=
  match l with
  | [] => none
  | [a] => some (OneOrMany.one a)
  | l => some (OneOrMany.many l)

/-- `FileConfigSrc` from `src/file_config.rs`: a bare path or a
`FileConfigSource { path }` object. -/
inductive FileConfigSrc where
  | path (p : String)
  | obj (p : String)
deriving DecidableEq

/-- `FileConfigSrc::path()`. -/
def FileConfigSrc.pathOf : FileConfigSrc → String
  | .path p => p
  | .obj p => p

/-- `FileConfig` from `src/file_config.rs`. -/
structure FileConfig where
  paths : Option (OneOrMany String)
  sources : Option (List (String × FileConfigSrc))
  unrecognized : List (String × String)
deriving DecidableEq

/-- `FileConfig::is_empty`. -/
def FileConfig.is_empty (c : FileConfig) : Bool :=
  c.paths.isNone && c.sources.isNone

/-- `FileConfigEnum` from `src/file_config.rs`. -/
inductive FileConfigEnum where
  | path (p : String)
  | paths (l : List String)
  | config (c : FileConfig)
deriving DecidableEq

/-- `FileConfigEnum::is_empty`. -/
def FileConfigEnum.is_empty : FileConfigEnum → Bool
  | .path _ => false
  | .paths v => v.isEmpty
  | .config c => c.is_empty

def POOL_SIZE_DEFAULT : Nat := 20

/-- `PgConfigBuilder` from `src/pg/config.rs`, generic over the
table/function info value types (their `ssl`-gated fields are
feature-disabled and omitted). -/
structure PgConfigBuilder (T F : Type) where
  connection_string : Option String
  default_srid : Option Int
  pool_size : Option Nat
  table_sources : Option (List (String × T))
  function_sources : Option (List (String × F))

/-- `PgConfig` from `src/pg/config.rs` (the finalized form). -/
structure PgConfig (T F : Type) where
  connection_string : String
  default_srid : Option Int
  pool_size : Nat
  discover_functions : Bool
  discover_tables : Bool
  table_sources : List (String × T)
  function_sources : List (String × F)

/-- `PgConfigBuilder::finalize` from `src/pg/config.rs`: fail when the
connection string is unset, else apply defaults; both auto-discovery
flags are `table_sources.is_none() && function_sources.is_none()`. -/
def PgConfigBuilder.finalize {T F : Type} (b : PgConfigBuilder T F) :
    Except String (PgConfig T F) :=
  match b.connection_string with
  | none => .error "Database connection string is not set"
  | some cs =>
      .ok
        { connection_string := cs
          default_srid := b.default_srid
          pool_size := b.pool_size.getD POOL_SIZE_DEFAULT
          discover_functions := b.table_sources.isNone && b.function_sources.isNone
          discover_tables := b.table_sources.isNone && b.function_sources.isNone
          table_sources := b.table_sources.getD []
          function_sources := b.function_sources.getD [] }

/-- C7: after `PgConfigBuilder::finalize` succeeds, the two auto-discovery
flags are equal, and they are `true` exactly when neither `table_sources`
nor `function_sources` was present in the input; declaring either map
disables auto-discovery for both. -/
theorem c7_autodiscovery_default {T F : Type} (b : PgConfigBuilder T F)
    (pc : PgConfig T F) (h : b.finalize = .ok pc) :
    pc.discover_tables = pc.discover_functions ∧
      ((pc.discover_tables = true ∧ pc.discover_functions = true) ↔
        (b.table_sources = none ∧ b.function_sources = none)) ∧
      ((b.table_sources ≠ none ∨ b.function_sources ≠ none) →
        pc.discover_tables = false ∧ pc.discover_functions = false) := by
  rcases hcs : b.connection_string with _ | cs
  · rw [PgConfigBuilder.finalize, hcs] at h
    exact absurd h (by simp)
  · rw [PgConfigBuilder.finalize, hcs] at h
    injection h with hpc
    subst hpc
    refine ⟨rfl, ?_, ?_⟩
    · simp [Option.isNone_iff_eq_none]
    · intro hd
      have hff : (b.table_sources.isNone && b.function_sources.isNone) = false := by
        rcases hd with hd | hd
        · have hh : b.table_sources.isNone = false := by
            rcases hts : b.table_sources with _ | v
            · exact absurd hts hd
            · rfl
          simp [hh]
        · have hh : b.function_sources.isNone = false := by
            rcases hts : b.function_sources with _ | v
            · exact absurd hts hd
            · rfl
          simp [hh]
      exact ⟨hff, hff⟩

/-- Witness for C7: an undeclared-sources builder finalizes with both
discovery flags on. -/
theorem c7_autodiscovery_default_witness :
    (PgConfigBuilder.finalize
        (⟨some "postgres-conn", none, none, none, none⟩ : PgConfigBuilder Unit Unit) =
      .ok
        { connection_string := "postgres-conn"
          default_srid := none
          pool_size := POOL_SIZE_DEFAULT
          discover_functions := true
          discover_tables := true
          table_sources := []
          function_sources := [] }) ∧
      ((true = true ∧ true = true) ↔
        ((none : Option (List (String × Unit))) = none ∧
          (none : Option (List (String × Unit))) = none)) :=
  ⟨rfl, by
    have h :=
      (c7_autodiscovery_default
        (⟨some "postgres-conn", none, none, none, none⟩ : PgConfigBuilder Unit Unit)
        _ rfl).2.1
    exact h⟩

/-- The error kinds of `Config::finalize` that the claims need. -/
inductive ConfigError where
  | NoSources
deriving DecidableEq

/-- Modelled from the spec: the per-pool `pg.finalize()?` call inside
`Config::finalize` (the `&mut self` finalizer of `PgConfig` is not in the
tree).  The spec gives it no failure mode — it applies defaults — so it is
the identity on the already-finalized `PgConfig` form. -/
def pgFinalize {T F : Type} (c : PgConfig T F) : Except ConfigError (PgConfig T F) :=
  .ok c

/-- `Config` from `src/config.rs` (the flattened `srv` block carries no
finalize behaviour and is omitted; `unrecognized` keys are only logged). -/
structure Config (T F : Type) where
  postgres : Option (OneOrMany (PgConfig T F))
  pmtiles : Option FileConfigEnum
  unrecognized : List (String × String)

/-- The `any |= ...` contribution of the `pmtiles` group. -/
def anyPmt : Option FileConfigEnum → Bool
  | some pmt => !pmt.is_empty
  | none => false

/-- The `for pg in pg.iter_mut() { pg.finalize()?; }` loop of
`Config::finalize`. -/
def pgFinalizeAll {T F : Type} : List (PgConfig T F) →
    Except ConfigError (List (PgConfig T F))
  | [] => .ok []
  | a :: t =>
      match pgFinalize a with
      | .error e => .error e
      | .ok b =>
          match pgFinalizeAll t with
          | .error e => .error e
          | .ok bs => .ok (b :: bs)

/-- `Config::finalize` from `src/config.rs`: finalize every postgres
config, then succeed iff some group is non-empty, else `NoSources`. -/
def configFinalize {T F : Type} (c : Config T F) : Except ConfigError (Config T F) :=
  match c.postgres with
  | some pg =>
      match pgFinalizeAll pg.toList with
      | .error e => .error e
      | .ok _ =>
          if !pg.is_empty || anyPmt c.pmtiles then .ok c else .error ConfigError.NoSources
  | none =>
      if false || anyPmt c.pmtiles then .ok c else .error ConfigError.NoSources

theorem pgFinalizeAll_ok {T F : Type} (l : List (PgConfig T F)) :
    pgFinalizeAll l = .ok l := by
  induction l with
  | nil => rfl
  | cons a t ih => simp [pgFinalizeAll, pgFinalize, ih]

/-- C5: `Config::finalize` fails with `NoSources` exactly when neither the
postgres list nor the pmtiles group is present and non-empty, and
otherwise succeeds (returning the config). -/
theorem c5_finalize_no_sources {T F : Type} (c : Config T F) :
    (configFinalize c = .error ConfigError.NoSources ↔
      ((∀ pg, c.postgres = some pg → pg.is_empty = true) ∧
        (∀ pmt, c.pmtiles = some pmt → pmt.is_empty = true))) ∧
      (configFinalize c = .error ConfigError.NoSources ∨ configFinalize c = .ok c) := by
  rcases hpg : c.postgres with _ | pg <;> rcases hpmt : c.pmtiles with _ | pmt
  · simp [configFinalize, hpg, hpmt, anyPmt]
  · by_cases he : pmt.is_empty <;> simp [configFinalize, hpg, hpmt, anyPmt, he]
  · by_cases he : pg.is_empty <;>
      simp [configFinalize, hpg, hpmt, anyPmt, he, pgFinalizeAll_ok]
  · by_cases he : pg.is_empty <;> by_cases he2 : pmt.is_empty <;>
      simp [configFinalize, hpg, hpmt, anyPmt, he, he2, pgFinalizeAll_ok]

/-- Witness for C5: the empty config finalizes to `NoSources`. -/
theorem c5_finalize_no_sources_witness :
    configFinalize (⟨none, none, []⟩ : Config Unit Unit) =
      .error ConfigError.NoSources :=
  (c5_finalize_no_sources (⟨none, none, []⟩ : Config Unit Unit)).1.2
    ⟨fun _ hpg => Option.noConfusion hpg, fun _ hpmt => Option.noConfusion hpmt⟩

/-! ### `Config::resolve` and `try_join_all` (C4)

`Config::resolve` pushes one resolver future per postgres config and one
for the pmtiles group, `try_join_all`s them, and folds the resulting
per-group registries together with `HashMap::extend`.  The group futures'
outcomes are the inputs of the embedding; `tryJoinAll` models
`futures::future::try_join_all` over already-determined outcomes
(sequentially, the leftmost error is propagated). -/

def tryJoinAll {E α : Type} : List (Except E α) → Except E (List α)
  | [] => .ok []
  | .error e :: _ => .error e
  | .ok a :: t =>
      match tryJoinAll t with
      | .error e => .error e
      | .ok rest => .ok (a :: rest)

/-- `acc.extend(hashmap)`. -/
def extendS (acc m : List (String × String)) : List (String × String) :=
  m.foldl (fun a e => mapInsert e.1 e.2 a) acc

/-- `Config::resolve` from `src/config.rs`, over the group outcomes
(postgres groups in order, then the pmtiles group when present). -/
def configResolve {E : Type} (pgResults : List (Except E (List (String × String))))
    (pmtResult : Option (Except E (List (String × String)))) :
    Except E (List (String × String)) :=
  match tryJoinAll (pgResults ++ pmtResult.toList) with
  | .error e => .error e
  | .ok l => .ok (l.foldl extendS [])

theorem tryJoinAll_ok_of_all {E α : Type} (l : List (Except E α))
    (h : ∀ r ∈ l, ∃ s, r = .ok s) : ∃ out, tryJoinAll l = .ok out := by
  induction l with
  | nil => exact ⟨[], rfl⟩
  | cons a t ih =>
    obtain ⟨s, hs⟩ := h a (by simp)
    subst hs
    obtain ⟨out, hout⟩ := ih (fun r hr => h r (by simp [hr]))
    exact ⟨s :: out, by simp [tryJoinAll, hout]⟩

theorem tryJoinAll_error_of_mem {E α : Type} (l : List (Except E α)) (e : E)
    (h : Except.error e ∈ l) : ∃ e', tryJoinAll l = .error e' := by
  induction l with
  | nil => simp at h
  | cons a t ih =>
    rcases a with e0 | s
    · exact ⟨e0, rfl⟩
    · rcases List.mem_cons.1 h with ha | ht
      · exact absurd ha (by simp)
      · obtain ⟨e', he'⟩ := ih ht
        exact ⟨e', by simp [tryJoinAll, he']⟩

/-- C4, amended: a failure in any backend group (a postgres pool or the
pmtiles group) aborts the whole startup resolution — `Config::resolve`
try-joins the group futures and propagates the error, returning no
registry at all; only when every group succeeds do the groups' sources
populate the returned registry, as the `extend`-union of the group
registries.  (Per-source failures are logged and skipped inside the
postgres instantiation, but that does not rescue a failed group.) -/
theorem c4_resolve_group_failure {E : Type}
    (pgResults : List (Except E (List (String × String))))
    (pmtResult : Option (Except E (List (String × String)))) :
    ((∀ r ∈ pgResults ++ pmtResult.toList, ∃ s, r = .ok s) →
        ∃ l, tryJoinAll (pgResults ++ pmtResult.toList) = .ok l ∧
          configResolve pgResults pmtResult = .ok (l.foldl extendS [])) ∧
      (∀ e, Except.error e ∈ pgResults ++ pmtResult.toList →
        ∃ e', configResolve pgResults pmtResult = .error e') := by
  constructor
  · intro h
    obtain ⟨out, hout⟩ := tryJoinAll_ok_of_all _ h
    exact ⟨out, hout, by simp [configResolve, hout]⟩
  · intro e he
    obtain ⟨e', he'⟩ := tryJoinAll_error_of_mem _ e he
    exact ⟨e', by simp [configResolve, he']⟩

/-- Witness for C4's amended statement: a failing pmtiles group makes the
whole resolution fail even though the postgres group succeeded. -/
theorem c4_resolve_group_failure_witness :
    ∃ e', configResolve (E := String) [Except.ok [("points", "pg-src")]]
        (some (Except.error "pmtiles group failed")) = .error e' :=
  (c4_resolve_group_failure [Except.ok [("points", "pg-src")]]
      (some (Except.error "pmtiles group failed"))).2
    "pmtiles group failed" (by simp)

/-- C4, counterexample to the claim as stated: with one postgres group
resolving to the source `points` and the pmtiles group failing,
`Config::resolve` returns the pmtiles error — the postgres group's source
does not populate any returned registry. -/
theorem c4_counterexample :
    configResolve (E := String) [Except.ok [("points", "pg-src")]]
        (some (Except.error "pmtiles group failed")) =
      Except.error "pmtiles group failed" ∧
      (configResolve (E := String) [Except.ok [("points", "pg-src")]]
          (some (Except.error "pmtiles group failed"))).toOption = none := by
  exact ⟨rfl, rfl⟩

/-! ### The file-config resolver `resolve_int` (C2)

`resolve_int` from `src/file_config.rs` (the pmtiles `resolve` in
`src/pmtiles/config.rs` is the same algorithm).  The filesystem is an
explicit structure of pure functions; `create_source` is an abstract
fallible constructor; the shared `IdResolver` state is threaded
explicitly. -/

/-- The filesystem operations `resolve_int` performs. -/
structure FS where
  canonicalize : String → Option String
  isFile : String → Bool
  isDir : String → Bool
  readDir : String → Option (List String)
  extension : String → Option String
  fileStem : String → Option String

/-- `FileError` from `src/file_config.rs` (the variants `resolve_int`
can produce). -/
inductive FileError where
  | ioError
  | invalidFilePath (p : String)
  | invalidSourceFilePath (id : String) (p : String)
deriving DecidableEq

/-- The mutable state of `resolve_int`: `results`, `configs`, `files`,
`directories`, and the id-resolver bindings. -/
structure RState (S : Type) where
  results : List (String × S)
  configs : List (String × FileConfigSrc)
  files : List String
  dirs : List String
  idr : IdR

/-- One iteration of the `for (id, source) in sources` loop:
canonicalize, require a regular file, record the canonical path, resolve
the ID, store the binding, create the source. -/
def processSource {S : Type} (fs : FS) (create : String → String → Except FileError S)
    (st : RState S) (e : String × FileConfigSrc) : Except FileError (RState S) :=
  match fs.canonicalize e.2.pathOf with
  | none => .error FileError.ioError
  | some can =>
      if fs.isFile can = false then .error (FileError.invalidSourceFilePath e.1 can)
      else
        let rid := resolveId st.idr e.1 can
        match create rid.1 e.2.pathOf with
        | .error er => .error er
        | .ok s =>
            .ok
              { results := mapInsert rid.1 s st.results
                configs := mapInsert rid.1 e.2 st.configs
                files := setInsert can st.files
                dirs := st.dirs
                idr := rid.2 }

def processSources {S : Type} (fs : FS) (create : String → String → Except FileError S) :
    List (String × FileConfigSrc) → RState S → Except FileError (RState S)
  | [], st => .ok st
  | e :: t, st =>
      match processSource fs create st e with
      | .error er => .error er
      | .ok st2 => processSources fs create t st2

/-- One iteration of the `for path in dir_files` loop: canonicalize, skip
paths already seen, derive the ID from the file stem, resolve, record,
create. -/
def processFile {S : Type} (fs : FS) (create : String → String → Except FileError S)
    (st : RState S) (p : String) : Except FileError (RState S) :=
  match fs.canonicalize p with
  | none => .error FileError.ioError
  | some can =>
      if can ∈ st.files then .ok st
      else
        let id0 := (fs.fileStem p).getD "_unknown"
        let rid := resolveId st.idr id0 can
        match create rid.1 p with
        | .error er => .error er
        | .ok s =>
            .ok
              { results := mapInsert rid.1 s st.results
                configs := mapInsert rid.1 (FileConfigSrc.path p) st.configs
                files := setInsert can st.files
                dirs := st.dirs
                idr := rid.2 }

def processFiles {S : Type} (fs : FS) (create : String → String → Except FileError S) :
    List String → RState S → Except FileError (RState S)
  | [], st => .ok st
  | p :: t, st =>
      match processFile fs create st p with
      | .error er => .error er
      | .ok st2 => processFiles fs create t st2

/-- The filter applied to directory entries: extension matches and the
entry is a regular file. -/
def entFilter (fs : FS) (ext : String) (f : String) : Bool :=
  (fs.extension f == some ext) && fs.isFile f

/-- One iteration of the `for path in paths` loop: a directory is
recorded and its matching entries are processed; a regular file is
processed directly; anything else is `InvalidFilePath`. -/
def processPath {S : Type} (fs : FS) (create : String → String → Except FileError S)
    (ext : String) (st : RState S) (p : String) : Except FileError (RState S) :=
  if fs.isDir p then
    match fs.readDir p with
    | none => .error FileError.ioError
    | some es =>
        processFiles fs create (es.filter (entFilter fs ext)) { st with dirs := st.dirs ++ [p] }
  else if fs.isFile p then processFiles fs create [p] st
  else .error (FileError.invalidFilePath ((fs.canonicalize p).getD p))

def processPaths {S : Type} (fs : FS) (create : String → String → Except FileError S)
    (ext : String) : List String → RState S → Except FileError (RState S)
  | [], st => .ok st
  | p :: t, st =>
      match processPath fs create ext st p with
      | .error er => .error er
      | .ok st2 => processPaths fs create ext t st2

/-- The `let cfg = match config { ... }` normalization at the top of
`resolve_int` (a single path becomes `paths=[p]`, a list stays, a
structured block is taken as-is). -/
def takeCfg : FileConfigEnum → FileConfig
  | .path p => ⟨some (OneOrMany.one p), none, []⟩
  | .paths l => ⟨some (OneOrMany.many l), none, []⟩
  | .config c => c

def stageSources {S : Type} (fs : FS) (create : String → String → Except FileError S)
    (cfg : FileConfig) (st0 : RState S) : Except FileError (RState S) :=
  match cfg.sources with
  | none => .ok st0
  | some l => processSources fs create l st0

def stagePaths {S : Type} (fs : FS) (create : String → String → Except FileError S)
    (ext : String) (cfg : FileConfig) (st : RState S) : Except FileError (RState S) :=
  match cfg.paths with
  | none => .ok st
  | some pl => processPaths fs create ext pl.toList st

/-- `resolve_int` from `src/file_config.rs`: normalize the config shape,
process explicit `sources`, then `paths`, and rewrite the config into its
structured form (`paths` holding the directory roots, `sources` holding
every concrete binding).  Returns the registry, the rewritten config, and
the final resolver state. -/
def resolveInt {S : Type} (fs : FS) (create : String → String → Except FileError S)
    (ext : String) (config : FileConfigEnum) (idr : IdR) :
    Except FileError (List (String × S) × FileConfigEnum × IdR) :=
  let cfg := takeCfg config
  match stageSources fs create cfg ⟨[], [], [], [], idr⟩ with
  | .error e => .error e
  | .ok st1 =>
      match stagePaths fs create ext cfg st1 with
      | .error e => .error e
      | .ok st2 =>
          .ok (st2.results,
            FileConfigEnum.config
              ⟨OneOrMany.new_opt st2.dirs, some st2.configs, cfg.unrecognized⟩,
            st2.idr)

/-! Invariants carried by the `resolve_int` state. -/

/-- What is true of every binding stored in `configs`, relative to the
initial resolver state `idr0`. -/
def EntryOk {S : Type} (fs : FS) (create : String → String → Except FileError S)
    (idr0 : IdR) (ce : String × FileConfigSrc) (s : S) : Prop :=
  ∃ can, fs.canonicalize ce.2.pathOf = some can ∧ fs.isFile can = true ∧
    create ce.1 ce.2.pathOf = Except.ok s ∧
    (lookupA idr0 ce.1 = none ∨ lookupA idr0 ce.1 = some can)

/-- The invariant of the `resolve_int` loops (dirs aside): `configs` and
`results` are aligned key-by-key with certified entries, keys are unique,
`files` is exactly the canonical paths of `configs`, every stored ID is
bound in the resolver to its canonical path, and the resolver state only
extends `idr0`. -/
structure CoreInv {S : Type} (fs : FS) (create : String → String → Except FileError S)
    (idr0 : IdR) (st : RState S) : Prop where
  align : List.Forall₂
    (fun ce re => ce.1 = re.1 ∧ EntryOk fs create idr0 ce re.2) st.configs st.results
  nodupKeys : (keysOf st.configs).Nodup
  filesInv : ∀ p, p ∈ st.files ↔ ∃ ce ∈ st.configs, fs.canonicalize ce.2.pathOf = some p
  bindInv : ∀ ce ∈ st.configs, ∃ can, fs.canonicalize ce.2.pathOf = some can ∧
    lookupA st.idr ce.1 = some can
  extInv : ∀ k v, lookupA idr0 k = some v → lookupA st.idr k = some v

theorem mem_setInsert_iff (s a : String) (l : List String) :
    a ∈ setInsert s l ↔ a = s ∨ a ∈ l := by
  by_cases h : s ∈ l
  · simp only [setInsert, if_pos h]
    constructor
    · exact Or.inr
    · rintro (rfl | ha)
      · exact h
      · exact ha
  · simp [setInsert, h, or_comm]

theorem mem_mapInsert_iff {α : Type} (m : List (String × α)) (k : String) (v : α)
    (hnd : (keysOf m).Nodup) (x : String × α) :
    x ∈ mapInsert k v m ↔ x = (k, v) ∨ (x ∈ m ∧ x.1 ≠ k) := by
  induction m with
  | nil => simp [mapInsert]
  | cons e t ih =>
    have hnd2 : e.1 ∉ keysOf t ∧ (keysOf t).Nodup := by
      simpa [keysOf] using hnd
    by_cases he : e.1 = k
    · rw [mapInsert, if_pos he]
      constructor
      · intro hx
        rcases List.mem_cons.1 hx with rfl | hxt
        · exact Or.inl rfl
        · refine Or.inr ⟨List.mem_cons.2 (Or.inr hxt), ?_⟩
          intro hxk
          apply hnd2.1
          have hxm : x.1 ∈ keysOf t := List.mem_map_of_mem (·.1) hxt
          rw [he, ← hxk]
          exact hxm
      · rintro (rfl | ⟨hxm, hxk⟩)
        · exact List.mem_cons.2 (Or.inl rfl)
        · rcases List.mem_cons.1 hxm with rfl | hxt
          · exact absurd (he ▸ rfl) hxk
          · exact List.mem_cons.2 (Or.inr hxt)
    · rw [mapInsert, if_neg he]
      constructor
      · intro hx
        rcases List.mem_cons.1 hx with rfl | hxt
        · exact Or.inr ⟨List.mem_cons.2 (Or.inl rfl), he⟩
        · rcases (ih hnd2.2).1 hxt with rfl | ⟨hxm, hxk⟩
          · exact Or.inl rfl
          · exact Or.inr ⟨List.mem_cons.2 (Or.inr hxm), hxk⟩
      · rintro (rfl | ⟨hxm, hxk⟩)
        · exact List.mem_cons.2 (Or.inr ((ih hnd2.2).2 (Or.inl rfl)))
        · rcases List.mem_cons.1 hxm with rfl | hxt
          · exact List.mem_cons.2 (Or.inl rfl)
          · exact List.mem_cons.2 (Or.inr ((ih hnd2.2).2 (Or.inr ⟨hxt, hxk⟩)))

theorem mapInsert_eq_append_of_not_mem {α : Type} (m : List (String × α)) (k : String)
    (v : α) (h : k ∉ keysOf m) : mapInsert k v m = m ++ [(k, v)] := by
  induction m with
  | nil => rfl
  | cons e t ih =>
    have he : ¬(e.1 = k) := by
      intro hek
      exact h (by simp [keysOf, hek])
    rw [mapInsert, if_neg he, ih (fun hm => h (by simp [keysOf] at hm ⊢; exact Or.inr hm))]
    rfl

/-- The three outcomes of `resolveId`, packaged: the output is either an
ID already bound to the requested signature (state unchanged), or an
unseen ID that gets bound. -/
theorem resolveId_cases (m : IdR) (id sig : String) :
    ∃ out m2, resolveId m id sig = (out, m2) ∧
      ((lookupA m out = some sig ∧ m2 = m) ∨
        (lookupA m out = none ∧ m2 = (out, sig) :: m)) := by
  rcases h : lookupA m id with _ | s2
  · exact ⟨id, (id, sig) :: m, by rw [resolveId, h], Or.inr ⟨h, rfl⟩⟩
  · by_cases hs : s2 = sig
    · subst hs
      exact ⟨id, m, by simp [resolveId, h], Or.inl ⟨h, rfl⟩⟩
    · obtain ⟨k, _, hfree, _, heq⟩ := resolveId_rename m id sig s2 h hs
      exact ⟨candidate id k, (candidate id k, sig) :: m, heq, Or.inr ⟨hfree, rfl⟩⟩

theorem forall2_mapInsert {S : Type}
    (P : (String × FileConfigSrc) → (String × S) → Prop)
    (hkey : ∀ ce re, P ce re → ce.1 = re.1) :
    ∀ (cs : List (String × FileConfigSrc)) (rs : List (String × S)),
      List.Forall₂ P cs rs → ∀ (k : String) (v1 : FileConfigSrc) (v2 : S),
        P (k, v1) (k, v2) → List.Forall₂ P (mapInsert k v1 cs) (mapInsert k v2 rs) := by
  intro cs rs h
  induction h with
  | nil =>
    intro k v1 v2 hk
    exact List.Forall₂.cons hk List.Forall₂.nil
  | @cons a b cs2 rs2 ha ht ih =>
    intro k v1 v2 hk
    have hab : a.1 = b.1 := hkey a b ha
    by_cases hc : a.1 = k
    · rw [mapInsert, if_pos hc, mapInsert, if_pos (hab ▸ hc)]
      exact List.Forall₂.cons hk ht
    · rw [mapInsert, if_neg hc, mapInsert, if_neg (hab ▸ hc)]
      exact List.Forall₂.cons ha (ih k v1 v2 hk)

/-- Registering one certified entry preserves the invariant: this is the
common tail of both loop bodies. -/
theorem CoreInv.register {S : Type} {fs : FS}
    {create : String → String → Except FileError S} {idr0 : IdR} {st : RState S}
    (g : CoreInv fs create idr0 st) (src : FileConfigSrc) (can : String) (s : S)
    (outId : String) (idr2 : IdR)
    (hcanon : fs.canonicalize src.pathOf = some can)
    (hfile : fs.isFile can = true)
    (hcreate : create outId src.pathOf = Except.ok s)
    (hout : (lookupA st.idr outId = some can ∧ idr2 = st.idr) ∨
      (lookupA st.idr outId = none ∧ idr2 = (outId, can) :: st.idr)) :
    CoreInv fs create idr0
      ⟨mapInsert outId s st.results, mapInsert outId src st.configs,
        setInsert can st.files, st.dirs, idr2⟩ := by
  have hidr0 : lookupA idr0 outId = none ∨ lookupA idr0 outId = some can := by
    rcases hq : lookupA idr0 outId with _ | v
    · exact Or.inl rfl
    · have hst := g.extInv outId v hq
      rcases hout with ⟨hsome, _⟩ | ⟨hnone, _⟩
      · rw [hst] at hsome
        injection hsome with hv
        exact Or.inr (by rw [hv])
      · rw [hst] at hnone
        exact Option.noConfusion hnone
  have hek : EntryOk fs create idr0 (outId, src) s :=
    ⟨can, hcanon, hfile, hcreate, hidr0⟩
  refine ⟨?_, ?_, ?_, ?_, ?_⟩
  · exact forall2_mapInsert _ (fun ce re h => h.1) _ _ g.align outId src s ⟨rfl, hek⟩
  · exact keysOf_mapInsert_nodup _ _ _ g.nodupKeys
  · intro p
    rw [mem_setInsert_iff]
    constructor
    · rintro (rfl | hp)
      · exact ⟨(outId, src),
          (mem_mapInsert_iff _ _ _ g.nodupKeys _).2 (Or.inl rfl), hcanon⟩
      · obtain ⟨ce, hce, hcp⟩ := (g.filesInv p).1 hp
        by_cases hk : ce.1 = outId
        · obtain ⟨can2, hcan2, hbind⟩ := g.bindInv ce hce
          have hpc : can2 = p := by
            rw [hcan2] at hcp
            injection hcp
          rw [hk] at hbind
          rcases hout with ⟨hsome, _⟩ | ⟨hnone, _⟩
          · rw [hbind] at hsome
            injection hsome with hcc
            refine ⟨(outId, src),
              (mem_mapInsert_iff _ _ _ g.nodupKeys _).2 (Or.inl rfl), ?_⟩
            rw [hcanon, ← hpc, hcc]
          · rw [hbind] at hnone
            exact Option.noConfusion hnone
        · exact ⟨ce, (mem_mapInsert_iff _ _ _ g.nodupKeys _).2 (Or.inr ⟨hce, hk⟩), hcp⟩
    · rintro ⟨ce, hce, hcp⟩
      rcases (mem_mapInsert_iff _ _ _ g.nodupKeys ce).1 hce with rfl | ⟨hcem, hk⟩
      · rw [hcanon] at hcp
        injection hcp with hcc
        exact Or.inl hcc.symm
      · exact Or.inr ((g.filesInv p).2 ⟨ce, hcem, hcp⟩)
  · intro ce hce
    rcases (mem_mapInsert_iff _ _ _ g.nodupKeys ce).1 hce with rfl | ⟨hcem, hk⟩
    · refine ⟨can, hcanon, ?_⟩
      rcases hout with ⟨hsome, rfl⟩ | ⟨_, rfl⟩
      · exact hsome
      · simp [lookupA]
    · obtain ⟨can2, hcan2, hbind⟩ := g.bindInv ce hcem
      refine ⟨can2, hcan2, ?_⟩
      rcases hout with ⟨_, rfl⟩ | ⟨_, rfl⟩
      · exact hbind
      · have hne : ¬(outId = ce.1) := fun h => hk h.symm
        simp [lookupA, hne, hbind]
  · intro k v hkv
    have h1 := g.extInv k v hkv
    rcases hout with ⟨_, rfl⟩ | ⟨hnone, rfl⟩
    · exact h1
    · have hne : ¬(outId = k) := by
        rintro rfl
        rw [h1] at hnone
        exact Option.noConfusion hnone
      simp [lookupA, hne, h1]

/-- The directory invariant: every recorded directory root is a
directory whose matching entries all have canonical paths already in the
seen-set. -/
def DirsInv {S : Type} (fs : FS) (ext : String) (st : RState S) : Prop :=
  ∀ d ∈ st.dirs, fs.isDir d = true ∧ ∃ es, fs.readDir d = some es ∧
    ∀ f ∈ es.filter (entFilter fs ext), ∃ c, fs.canonicalize f = some c ∧ c ∈ st.files

/-- Filesystem coherence used by the idempotence proof: canonicalizing a
regular file yields a regular file. -/
def FsFileCoherent (fs : FS) : Prop :=
  ∀ p c, fs.canonicalize p = some c → fs.isFile p = true → fs.isFile c = true

theorem processSource_coreInv {S : Type} {fs : FS}
    {create : String → String → Except FileError S} {idr0 : IdR} (st : RState S)
    (e : String × FileConfigSrc) (st2 : RState S) (g : CoreInv fs create idr0 st)
    (h : processSource fs create st e = .ok st2) :
    CoreInv fs create idr0 st2 ∧ st2.dirs = st.dirs ∧ ∀ p ∈ st.files, p ∈ st2.files := by
  rcases hcan : fs.canonicalize e.2.pathOf with _ | can
  · simp only [processSource, hcan] at h
    exact Except.noConfusion h
  · obtain ⟨out, m2, hres, hout⟩ := resolveId_cases st.idr e.1 can
    by_cases hf : fs.isFile can = false
    · simp only [processSource, hcan, if_pos hf] at h
      exact Except.noConfusion h
    · rcases hcr : create out e.2.pathOf with er | s
      · simp only [processSource, hcan, if_neg hf, hres, hcr] at h
        exact Except.noConfusion h
      · simp only [processSource, hcan, if_neg hf, hres, hcr] at h
        injection h with h2
        subst h2
        refine ⟨?_, rfl, fun p hp => mem_setInsert_of_mem _ _ _ hp⟩
        exact g.register e.2 can s out m2 hcan (by
          rcases hb : fs.isFile can
          · exact absurd hb hf
          · rfl) hcr hout

theorem processSources_coreInv {S : Type} {fs : FS}
    {create : String → String → Except FileError S} {idr0 : IdR}
    (l : List (String × FileConfigSrc)) :
    ∀ (st st2 : RState S), CoreInv fs create idr0 st →
      processSources fs create l st = .ok st2 →
      CoreInv fs create idr0 st2 ∧ st2.dirs = st.dirs ∧ ∀ p ∈ st.files, p ∈ st2.files := by
  induction l with
  | nil =>
    intro st st2 g h
    rw [processSources] at h
    injection h with h2
    subst h2
    exact ⟨g, rfl, fun p hp => hp⟩
  | cons e t ih =>
    intro st st2 g h
    rw [processSources] at h
    rcases hs : processSource fs create st e with er | stm
    · rw [hs] at h
      exact Except.noConfusion h
    · rw [hs] at h
      obtain ⟨g1, hd1, hf1⟩ := processSource_coreInv st e stm g hs
      obtain ⟨g2, hd2, hf2⟩ := ih stm st2 g1 h
      exact ⟨g2, by rw [hd2, hd1], fun p hp => hf2 p (hf1 p hp)⟩

theorem processFile_coreInv {S : Type} {fs : FS}
    {create : String → String → Except FileError S} {idr0 : IdR}
    (hfs : FsFileCoherent fs) (st : RState S) (p : String) (st2 : RState S)
    (hp : fs.isFile p = true) (g : CoreInv fs create idr0 st)
    (h : processFile fs create st p = .ok st2) :
    CoreInv fs create idr0 st2 ∧ st2.dirs = st.dirs ∧ (∀ q ∈ st.files, q ∈ st2.files) ∧
      ∃ c, fs.canonicalize p = some c ∧ c ∈ st2.files := by
  rcases hcan : fs.canonicalize p with _ | can
  · simp only [processFile, hcan] at h
    exact Except.noConfusion h
  · obtain ⟨out, m2, hres, hout⟩ := resolveId_cases st.idr ((fs.fileStem p).getD "_unknown") can
    by_cases hmem : can ∈ st.files
    · simp only [processFile, hcan, if_pos hmem] at h
      injection h with h2
      subst h2
      exact ⟨g, rfl, fun q hq => hq, can, rfl, hmem⟩
    · rcases hcr : create out p with er | s
      · simp only [processFile, hcan, if_neg hmem, hres, hcr] at h
        exact Except.noConfusion h
      · simp only [processFile, hcan, if_neg hmem, hres, hcr] at h
        injection h with h2
        subst h2
        refine ⟨?_, rfl, fun q hq => mem_setInsert_of_mem _ _ _ hq, can, rfl,
          mem_setInsert_self _ _⟩
        exact g.register (FileConfigSrc.path p) can s out m2 hcan (hfs p can hcan hp) hcr hout

theorem processFiles_coreInv {S : Type} {fs : FS}
    {create : String → String → Except FileError S} {idr0 : IdR}
    (hfs : FsFileCoherent fs) (l : List String) :
    ∀ (st st2 : RState S), (∀ p ∈ l, fs.isFile p = true) → CoreInv fs create idr0 st →
      processFiles fs create l st = .ok st2 →
      CoreInv fs create idr0 st2 ∧ st2.dirs = st.dirs ∧ (∀ q ∈ st.files, q ∈ st2.files) ∧
        ∀ f ∈ l, ∃ c, fs.canonicalize f = some c ∧ c ∈ st2.files := by
  induction l with
  | nil =>
    intro st st2 _ g h
    rw [processFiles] at h
    injection h with h2
    subst h2
    exact ⟨g, rfl, fun q hq => hq, by simp⟩
  | cons p t ih =>
    intro st st2 hl g h
    rw [processFiles] at h
    rcases hs : processFile fs create st p with er | stm
    · rw [hs] at h
      exact Except.noConfusion h
    · rw [hs] at h
      obtain ⟨g1, hd1, hf1, c, hc, hcm⟩ :=
        processFile_coreInv hfs st p stm (hl p (by simp)) g hs
      obtain ⟨g2, hd2, hf2, hall⟩ := ih stm st2 (fun q hq => hl q (by simp [hq])) g1 h
      refine ⟨g2, by rw [hd2, hd1], fun q hq => hf2 q (hf1 q hq), ?_⟩
      intro f hf
      rcases List.mem_cons.1 hf with rfl | hft
      · exact ⟨c, hc, hf2 c hcm⟩
      · exact hall f hft

theorem coreInv_dirs_irrel {S : Type} {fs : FS}
    {create : String → String → Except FileError S} {idr0 : IdR} (st : RState S)
    (d : List String) (g : CoreInv fs create idr0 st) :
    CoreInv fs create idr0 { st with dirs := d } :=
  ⟨g.align, g.nodupKeys, g.filesInv, g.bindInv, g.extInv⟩

theorem processPath_good {S : Type} {fs : FS}
    {create : String → String → Except FileError S} {idr0 : IdR} {ext : String}
    (hfs : FsFileCoherent fs) (st : RState S) (p : String) (st2 : RState S)
    (g : CoreInv fs create idr0 st) (gd : DirsInv fs ext st)
    (h : processPath fs create ext st p = .ok st2) :
    CoreInv fs create idr0 st2 ∧ DirsInv fs ext st2 ∧ ∀ q ∈ st.files, q ∈ st2.files := by
  rw [processPath] at h
  by_cases hdir : fs.isDir p
  · rw [if_pos hdir] at h
    rcases hrd : fs.readDir p with _ | es
    · rw [hrd] at h
      exact Except.noConfusion h
    · rw [hrd] at h
      have hisf : ∀ f ∈ es.filter (entFilter fs ext), fs.isFile f = true := by
        intro f hf
        have h2 := (List.mem_filter.1 hf).2
        exact (Bool.and_eq_true _ _ ▸ h2).2
      obtain ⟨g2, hd2, hf2, hall⟩ :=
        processFiles_coreInv hfs (es.filter (entFilter fs ext))
          { st with dirs := st.dirs ++ [p] } st2 hisf
          (coreInv_dirs_irrel st _ g) h
      refine ⟨g2, ?_, hf2⟩
      intro d hd
      rw [hd2] at hd
      simp only [List.mem_append, List.mem_singleton] at hd
      rcases hd with hd | rfl
      · obtain ⟨hdd, es2, hes2, hents⟩ := gd d hd
        refine ⟨hdd, es2, hes2, ?_⟩
        intro f hf
        obtain ⟨c, hc, hcm⟩ := hents f hf
        exact ⟨c, hc, hf2 c hcm⟩
      · exact ⟨hdir, es, hrd, hall⟩
  · rw [if_neg hdir] at h
    by_cases hfile : fs.isFile p
    · rw [if_pos hfile] at h
      obtain ⟨g2, hd2, hf2, _⟩ :=
        processFiles_coreInv hfs [p] st st2 (by simpa using hfile) g h
      refine ⟨g2, ?_, hf2⟩
      intro d hd
      rw [hd2] at hd
      obtain ⟨hdd, es2, hes2, hents⟩ := gd d hd
      refine ⟨hdd, es2, hes2, ?_⟩
      intro f hf
      obtain ⟨c, hc, hcm⟩ := hents f hf
      exact ⟨c, hc, hf2 c hcm⟩
    · rw [if_neg hfile] at h
      exact Except.noConfusion h

theorem processPaths_good {S : Type} {fs : FS}
    {create : String → String → Except FileError S} {idr0 : IdR} {ext : String}
    (hfs : FsFileCoherent fs) (l : List String) :
    ∀ (st st2 : RState S), CoreInv fs create idr0 st → DirsInv fs ext st →
      processPaths fs create ext l st = .ok st2 →
      CoreInv fs create idr0 st2 ∧ DirsInv fs ext st2 := by
  induction l with
  | nil =>
    intro st st2 g gd h
    rw [processPaths] at h
    injection h with h2
    subst h2
    exact ⟨g, gd⟩
  | cons p t ih =>
    intro st st2 g gd h
    rw [processPaths] at h
    rcases hs : processPath fs create ext st p with er | stm
    · rw [hs] at h
      exact Except.noConfusion h
    · rw [hs] at h
      obtain ⟨g1, gd1, _⟩ := processPath_good hfs st p stm g gd hs
      exact ih stm st2 g1 gd1 h

theorem keysOf_cons_mem {α : Type} (a : String × α) (t : List (String × α)) (k : String) :
    k ∈ keysOf (a :: t) ↔ k = a.1 ∨ k ∈ keysOf t := by
  simp [keysOf, eq_comm]

theorem resolveId_of_none (m : IdR) (id sig : String) (h : lookupA m id = none) :
    resolveId m id sig = (id, (id, sig) :: m) := by
  rw [resolveId, h]

theorem resolveId_of_same (m : IdR) (id sig : String) (h : lookupA m id = some sig) :
    resolveId m id sig = (id, m) := by
  simp [resolveId, h]

/-- Replaying the stored `sources` bindings from a fresh run reproduces
them verbatim: every certified entry resolves to its own key again. -/
theorem processSources_replay {S : Type} {fs : FS}
    {create : String → String → Except FileError S} {idr0 : IdR} :
    ∀ (cs : List (String × FileConfigSrc)) (rs : List (String × S)),
      List.Forall₂ (fun ce re => ce.1 = re.1 ∧ EntryOk fs create idr0 ce re.2) cs rs →
      ∀ (st : RState S), (keysOf cs).Nodup →
        (∀ k ∈ keysOf cs, k ∉ keysOf st.configs) →
        (∀ k ∈ keysOf cs, k ∉ keysOf st.results) →
        (∀ ce ∈ cs, lookupA st.idr ce.1 = lookupA idr0 ce.1) →
        ∃ st2, processSources fs create cs st = .ok st2 ∧
          st2.results = st.results ++ rs ∧ st2.configs = st.configs ++ cs ∧
          st2.dirs = st.dirs ∧
          (∀ p, p ∈ st2.files ↔
            p ∈ st.files ∨ ∃ ce ∈ cs, fs.canonicalize ce.2.pathOf = some p) := by
  intro cs rs h
  induction h with
  | nil =>
    intro st _ _ _ _
    exact ⟨st, rfl, by simp, by simp, rfl, by simp⟩
  | @cons a b cs2 rs2 ha ht ih =>
    intro st hnd hkc hkr hagree
    obtain ⟨hkey, can, hcanon, hfile, hcreate, hidr0⟩ := ha
    have hnd2 : a.1 ∉ keysOf cs2 ∧ (keysOf cs2).Nodup := by simpa [keysOf] using hnd
    have hlook : lookupA st.idr a.1 = lookupA idr0 a.1 := hagree a (by simp)
    have hfneg : ¬(fs.isFile can = false) := by simp [hfile]
    -- the resolver returns the stored key verbatim
    have hres : ∃ idr2, resolveId st.idr a.1 can = (a.1, idr2) ∧
        (idr2 = st.idr ∨ idr2 = (a.1, can) :: st.idr) ∧
        (∀ q, q ≠ a.1 → lookupA idr2 q = lookupA st.idr q) := by
      rcases hidr0 with hid | hid
      · refine ⟨(a.1, can) :: st.idr, resolveId_of_none _ _ _ (by rw [hlook, hid]),
          Or.inr rfl, ?_⟩
        intro q hq
        have hne : ¬(a.1 = q) := fun hh => hq hh.symm
        simp [lookupA, hne]
      · exact ⟨st.idr, resolveId_of_same _ _ _ (by rw [hlook, hid]), Or.inl rfl,
          fun q _ => rfl⟩
    obtain ⟨idr2, hres, hidr2, hidr2q⟩ := hres
    have hcreate2 : create a.1 a.2.pathOf = Except.ok b.2 := hcreate
    have hstep : processSource fs create st a = .ok
        ⟨mapInsert a.1 b.2 st.results, mapInsert a.1 a.2 st.configs,
          setInsert can st.files, st.dirs, idr2⟩ := by
      simp only [processSource, hcanon, if_neg hfneg, hres, hcreate2]
    have hrapp : mapInsert a.1 b.2 st.results = st.results ++ [b] := by
      rw [mapInsert_eq_append_of_not_mem _ _ _ (hkr a.1 ((keysOf_cons_mem a cs2 a.1).2 (Or.inl rfl)))]
      have hb : (a.1, b.2) = b := by
        rcases b with ⟨b1, b2⟩
        simp at hkey ⊢
        exact hkey
      rw [hb]
    have hcapp : mapInsert a.1 a.2 st.configs = st.configs ++ [a] := by
      rw [mapInsert_eq_append_of_not_mem _ _ _ (hkc a.1 ((keysOf_cons_mem a cs2 a.1).2 (Or.inl rfl)))]
    set stm : RState S := ⟨mapInsert a.1 b.2 st.results, mapInsert a.1 a.2 st.configs,
      setInsert can st.files, st.dirs, idr2⟩ with hstm
    have hrec := ih stm hnd2.2
      (by
        intro k hk
        rw [hstm]
        show ¬(k ∈ keysOf (mapInsert a.1 a.2 st.configs))
        rw [hcapp]
        simp only [keysOf, List.map_append, List.mem_append, List.map]
        rintro (hh | hh)
        · exact hkc k ((keysOf_cons_mem a cs2 k).2 (Or.inr hk)) hh
        · simp at hh
          rw [hh] at hk
          exact hnd2.1 hk)
      (by
        intro k hk
        rw [hstm]
        show ¬(k ∈ keysOf (mapInsert a.1 b.2 st.results))
        rw [hrapp]
        simp only [keysOf, List.map_append, List.mem_append, List.map]
        rintro (hh | hh)
        · exact hkr k ((keysOf_cons_mem a cs2 k).2 (Or.inr hk)) hh
        · simp at hh
          have hb1 : b.1 = a.1 := hkey.symm
          rw [hh, hb1] at hk
          exact hnd2.1 hk)
      (by
        intro ce hce
        have hcene : ce.1 ≠ a.1 := by
          intro hh
          apply hnd2.1
          rw [← hh]
          exact List.mem_map_of_mem (·.1) hce
        rw [hstm]
        show lookupA idr2 ce.1 = lookupA idr0 ce.1
        rw [hidr2q ce.1 hcene]
        exact hagree ce (List.mem_cons.2 (Or.inr hce)))
    obtain ⟨st2, hp2, hr2, hc2, hd2, hf2⟩ := hrec
    refine ⟨st2, ?_, ?_, ?_, ?_, ?_⟩
    · simp only [processSources, hstep]
      exact hp2
    · rw [hr2, hstm]
      show mapInsert a.1 b.2 st.results ++ rs2 = st.results ++ b :: rs2
      rw [hrapp]
      simp
    · rw [hc2, hstm]
      show mapInsert a.1 a.2 st.configs ++ cs2 = st.configs ++ a :: cs2
      rw [hcapp]
      simp
    · rw [hd2]
    · intro p
      rw [hf2 p]
      constructor
      · rintro (hp | ⟨ce, hce, hcp⟩)
        · rcases (mem_setInsert_iff can p st.files).1 hp with rfl | hp2
          · exact Or.inr ⟨a, by simp, hcanon⟩
          · exact Or.inl hp2
        · exact Or.inr ⟨ce, by simp [hce], hcp⟩
      · rintro (hp | ⟨ce, hce, hcp⟩)
        · exact Or.inl ((mem_setInsert_iff can p st.files).2 (Or.inr hp))
        · rcases List.mem_cons.1 hce with rfl | hce2
          · refine Or.inl ((mem_setInsert_iff can p st.files).2 (Or.inl ?_))
            rw [hcanon] at hcp
            injection hcp with hh
            exact hh.symm
          · exact Or.inr ⟨ce, hce2, hcp⟩

theorem processFiles_all_skip {S : Type} (fs : FS)
    (create : String → String → Except FileError S) :
    ∀ (l : List String) (st : RState S),
      (∀ f ∈ l, ∃ c, fs.canonicalize f = some c ∧ c ∈ st.files) →
      processFiles fs create l st = .ok st := by
  intro l
  induction l with
  | nil => intro st _; rfl
  | cons f t ih =>
    intro st hall
    obtain ⟨c, hc, hcm⟩ := hall f (by simp)
    have hstep : processFile fs create st f = .ok st := by
      simp only [processFile, hc, if_pos hcm]
    simp only [processFiles, hstep]
    exact ih st (fun q hq => hall q (by simp [hq]))

theorem processPaths_replay {S : Type} (fs : FS)
    (create : String → String → Except FileError S) (ext : String) :
    ∀ (ds : List String) (st : RState S),
      (∀ d ∈ ds, fs.isDir d = true ∧ ∃ es, fs.readDir d = some es ∧
        ∀ f ∈ es.filter (entFilter fs ext), ∃ c, fs.canonicalize f = some c ∧ c ∈ st.files) →
      processPaths fs create ext ds st = .ok { st with dirs := st.dirs ++ ds } := by
  intro ds
  induction ds with
  | nil => intro st _; simp [processPaths]
  | cons d t ih =>
    intro st hall
    obtain ⟨hdir, es, hes, hents⟩ := hall d (by simp)
    have hstep : processPath fs create ext st d =
        .ok { st with dirs := st.dirs ++ [d] } := by
      rw [processPath, if_pos hdir, hes]
      exact processFiles_all_skip fs create _ _ (fun f hf => hents f hf)
    simp only [processPaths, hstep]
    have hrec := ih { st with dirs := st.dirs ++ [d] }
      (fun d2 hd2 => hall d2 (by simp [hd2]))
    rw [hrec]
    simp

theorem newOpt_none_iff {α : Type} (l : List α) :
    OneOrMany.new_opt l = none ↔ l = [] := by
  rcases l with _ | ⟨a, _ | ⟨b, t⟩⟩ <;> simp [OneOrMany.new_opt]

theorem newOpt_toList {α : Type} (l : List α) (om : OneOrMany α)
    (h : OneOrMany.new_opt l = some om) : om.toList = l := by
  rcases l with _ | ⟨a, _ | ⟨b, t⟩⟩ <;> simp [OneOrMany.new_opt] at h <;>
    simp [← h, OneOrMany.toList]

theorem forall2_keysOf {S : Type} {P : (String × FileConfigSrc) → (String × S) → Prop}
    (hkey : ∀ ce re, P ce re → ce.1 = re.1) :
    ∀ (cs : List (String × FileConfigSrc)) (rs : List (String × S)),
      List.Forall₂ P cs rs → keysOf cs = keysOf rs := by
  intro cs rs h
  induction h with
  | nil => rfl
  | @cons a b cs2 rs2 ha _ ih =>
    show a.1 :: keysOf cs2 = b.1 :: keysOf rs2
    rw [hkey a b ha, ih]

/-- C2: the file-config resolver is idempotent.  When `resolve_int`
succeeds it rewrites the config into its structured form — `paths`
holding only directory roots and `sources` holding one binding per
registered source ID — and running `resolve_int` again on that rewritten
config (with the same initial resolver state and an unchanged
filesystem, where canonicalizing a regular file yields a regular file)
produces the same registry and the same structured config. -/
theorem c2_resolveInt_idempotent {S : Type} (fs : FS)
    (create : String → String → Except FileError S) (ext : String)
    (cfg : FileConfigEnum) (idr0 : IdR) (res : List (String × S))
    (cfg2 : FileConfigEnum) (idrOut : IdR) (hfs : FsFileCoherent fs)
    (h : resolveInt fs create ext cfg idr0 = .ok (res, cfg2, idrOut)) :
    (∃ idr2, resolveInt fs create ext cfg2 idr0 = .ok (res, cfg2, idr2)) ∧
      ∃ dirs srcs unrec,
        cfg2 = FileConfigEnum.config ⟨OneOrMany.new_opt dirs, some srcs, unrec⟩ ∧
          (∀ d ∈ dirs, fs.isDir d = true) ∧ keysOf srcs = keysOf res := by
  simp only [resolveInt] at h
  rcases h1 : stageSources fs create (takeCfg cfg) ⟨[], [], [], [], idr0⟩ with e1 | st1
  · simp only [h1] at h
    exact Except.noConfusion h
  · simp only [h1] at h
    rcases h2 : stagePaths fs create ext (takeCfg cfg) st1 with e2 | st2
    · simp only [h2] at h
      exact Except.noConfusion h
    · simp only [h2] at h
      injection h with h3
      rw [Prod.mk.injEq, Prod.mk.injEq] at h3
      obtain ⟨hres, hcfg2, _⟩ := h3
      have g0 : CoreInv fs create idr0 (⟨[], [], [], [], idr0⟩ : RState S) :=
        ⟨List.Forall₂.nil, by simp [keysOf], by simp, by simp, fun k v hv => hv⟩
      have hstage1 : CoreInv fs create idr0 st1 ∧ st1.dirs = [] := by
        rw [stageSources] at h1
        rcases hsrc : (takeCfg cfg).sources with _ | l
        · rw [hsrc] at h1
          injection h1 with hh
          exact ⟨hh ▸ g0, hh ▸ rfl⟩
        · rw [hsrc] at h1
          obtain ⟨g1, hd1, _⟩ := processSources_coreInv l _ _ g0 h1
          exact ⟨g1, by rw [hd1]⟩
      have gd1 : DirsInv fs ext st1 := by
        intro d hd
        rw [hstage1.2] at hd
        simp at hd
      have hstage2 : CoreInv fs create idr0 st2 ∧ DirsInv fs ext st2 := by
        rw [stagePaths] at h2
        rcases hp : (takeCfg cfg).paths with _ | pl
        · rw [hp] at h2
          injection h2 with hh
          exact ⟨hh ▸ hstage1.1, hh ▸ gd1⟩
        · rw [hp] at h2
          exact processPaths_good hfs pl.toList st1 st2 hstage1.1 gd1 h2
      obtain ⟨g2, gd2⟩ := hstage2
      subst hres
      subst hcfg2
      refine ⟨?_, st2.dirs, st2.configs, (takeCfg cfg).unrecognized, rfl,
        fun d hd => (gd2 d hd).1, forall2_keysOf (fun ce re hh => hh.1) _ _ g2.align⟩
      -- replay the sources
      obtain ⟨st1x, hp1, hr1, hc1, hd1, hf1⟩ :=
        processSources_replay st2.configs st2.results g2.align
          (⟨[], [], [], [], idr0⟩ : RState S) g2.nodupKeys
          (by simp [keysOf]) (by simp [keysOf]) (fun ce _ => rfl)
      have hr1e : st1x.results = st2.results := by simpa using hr1
      have hc1e : st1x.configs = st2.configs := by simpa using hc1
      have hd1e : st1x.dirs = [] := by simpa using hd1
      have hfe : ∀ p, p ∈ st1x.files ↔ p ∈ st2.files := by
        intro p
        rw [hf1 p, g2.filesInv p]
        simp
      have hss : stageSources fs create
          (⟨OneOrMany.new_opt st2.dirs, some st2.configs,
            (takeCfg cfg).unrecognized⟩ : FileConfig) ⟨[], [], [], [], idr0⟩ =
          .ok st1x := hp1
      have heval : resolveInt fs create ext
          (FileConfigEnum.config ⟨OneOrMany.new_opt st2.dirs, some st2.configs,
            (takeCfg cfg).unrecognized⟩) idr0 =
          match stageSources fs create
              (⟨OneOrMany.new_opt st2.dirs, some st2.configs,
                (takeCfg cfg).unrecognized⟩ : FileConfig) ⟨[], [], [], [], idr0⟩ with
          | .error e => .error e
          | .ok sta =>
              match stagePaths fs create ext
                  (⟨OneOrMany.new_opt st2.dirs, some st2.configs,
                    (takeCfg cfg).unrecognized⟩ : FileConfig) sta with
              | .error e => .error e
              | .ok stb =>
                  .ok (stb.results,
                    FileConfigEnum.config ⟨OneOrMany.new_opt stb.dirs, some stb.configs,
                      (takeCfg cfg).unrecognized⟩, stb.idr) := rfl
      rcases hno : OneOrMany.new_opt st2.dirs with _ | pl
      · have hdnil : st2.dirs = [] := (newOpt_none_iff _).1 hno
        rw [hno] at heval hss
        have hsp : stagePaths fs create ext
            (⟨none, some st2.configs,
              (takeCfg cfg).unrecognized⟩ : FileConfig) st1x = .ok st1x := rfl
        refine ⟨st1x.idr, ?_⟩
        rw [heval]
        simp only [hss, hsp]
        rw [hr1e, hc1e, hd1e]
        rfl
      · have htl : pl.toList = st2.dirs := newOpt_toList _ _ hno
        rw [hno] at heval hss
        have hall : ∀ d ∈ st2.dirs, fs.isDir d = true ∧ ∃ es, fs.readDir d = some es ∧
            ∀ f ∈ es.filter (entFilter fs ext),
              ∃ c, fs.canonicalize f = some c ∧ c ∈ st1x.files := by
          intro d hd
          obtain ⟨hdd, es, hes, hents⟩ := gd2 d hd
          refine ⟨hdd, es, hes, ?_⟩
          intro f hf
          obtain ⟨c, hc, hcm⟩ := hents f hf
          exact ⟨c, hc, (hfe c).2 hcm⟩
        have hpp := processPaths_replay fs create ext st2.dirs st1x hall
        have hsp : stagePaths fs create ext
            (⟨some pl, some st2.configs,
              (takeCfg cfg).unrecognized⟩ : FileConfig) st1x =
            .ok { st1x with dirs := st1x.dirs ++ st2.dirs } := by
          show processPaths fs create ext pl.toList st1x = _
          rw [htl]
          exact hpp
        refine ⟨st1x.idr, ?_⟩
        rw [heval]
        simp only [hss, hsp]
        rw [hr1e, hc1e, hd1e]
        simp [hno]

/-- A one-file filesystem for the C2 witness. -/
def demoFS : FS :=
  { canonicalize := fun p => if p = "/a.pmtiles" then some p else none
    isFile := fun p => p == "/a.pmtiles"
    isDir := fun _ => false
    readDir := fun _ => none
    extension := fun _ => some "pmtiles"
    fileStem := fun _ => some "a" }

def demoCreate (id p : String) : Except FileError String := .ok (id ++ ":" ++ p)

theorem demoFS_coherent : FsFileCoherent demoFS := by
  intro p c h1 h2
  by_cases hp : p = "/a.pmtiles"
  · subst hp
    have h1b : (if ("/a.pmtiles" : String) = "/a.pmtiles" then some ("/a.pmtiles" : String)
        else none) = some c := h1
    rw [if_pos rfl] at h1b
    injection h1b with h1c
    rw [← h1c]
    exact h2
  · simp [demoFS, hp] at h1

/-- Witness for C2: resolving a one-file config and re-running the
resolver on the rewritten output reproduces the registry and config. -/
theorem c2_resolveInt_idempotent_witness :
    ∃ idr2, resolveInt demoFS demoCreate "pmtiles"
        (FileConfigEnum.config
          ⟨none, some [("a", FileConfigSrc.path "/a.pmtiles")], []⟩) [] =
      .ok ([("a", "a:/a.pmtiles")],
        FileConfigEnum.config
          ⟨none, some [("a", FileConfigSrc.path "/a.pmtiles")], []⟩, idr2) :=
  (c2_resolveInt_idempotent demoFS demoCreate "pmtiles"
    (FileConfigEnum.path "/a.pmtiles") [] [("a", "a:/a.pmtiles")]
    (FileConfigEnum.config ⟨none, some [("a", FileConfigSrc.path "/a.pmtiles")], []⟩)
    [("a", "/a.pmtiles")] demoFS_coherent (by rfl)).1

end Martin
